import Mathlib

/-!
Verification of the `History` component of `vnet/dialogs.py` (GRASS GIS
vector-network analysis dialog).

The embedding models the Python 2 code of the class `History`
(lines 2132-2373 of `dialogs.py`) shallowly:

* The backing file is a list of lines (`List Char` each), without their
  trailing newline characters; `os.linesep` is modelled as `'\n'` (the
  platform of interest is Linux).  A blank line is a line of whitespace.
* Python dictionaries are modelled as insertion-ordered association lists.
  (CPython 2 iterates dictionaries in hash order; no claim below depends on
  the iteration order, and the model uses the deterministic insertion
  order for both the writer and the reader, which keeps the two sides
  consistent.)
* Python exceptions (`TypeError`, `IndexError`, `ValueError`, `NameError`)
  are modelled by `Option`: `none` means the corresponding Python code
  raises, `some` is a normal return.
* Python floats are modelled as exact decimal numbers
  (sign, integer part, fraction digits).  On this subset `str`/`repr` and
  `float()` of CPython 2.7 are exact, and this is the subset the dialog
  stores (point coordinates and similar short decimals).
* `UserSettings.Get(... 'max_hist_steps')` is modelled as a parameter of
  `SaveHistStep`, re-read at each commit; the settings dialog creates the
  value with `wx.SpinCtrl(min = 1, max = 50)`, so the configured value is
  at least 1.
-/

/-- Character list; Python strings and file lines are modelled as `Str`. -/
abbrev Str := List Char

/-- The characters stripped by Python's `str.strip()` with no argument.  -/
def wsChar (c : Char) : Bool :=
  c = ' ' || c = '\t' || c = '\n' || c = '\r' || c = '\x0b' || c = '\x0c'

/-- `line.strip()` is empty, i.e. the line is blank. -/
def blankLine (s : Str) : Bool := s.all wsChar

/-- Python's `s.split(c)` for a one-character separator: all pieces, empty
pieces kept, `[""]` for the empty string. -/
def splitOnChar (c : Char) : Str → List Str
  | [] => [[]]
  | x :: xs =>
    match splitOnChar c xs with
    | [] => if x = c then [[], []] else [[x]]
    | p :: ps => if x = c then [] :: p :: ps else (x :: p) :: ps

/-- Python's `sep.join(pieces)`. -/
def joinSep (sep : Str) : List Str → Str
  | [] => []
  | [p] => p
  | p :: q :: r => p ++ sep ++ joinSep sep (q :: r)

/-- Python's `s.strip()`: drop leading and trailing whitespace. -/
def stripWS (s : Str) : Str :=
  ((s.dropWhile wsChar).reverse.dropWhile wsChar).reverse

/-- Decimal digit to character. -/
def digitChar : Nat → Char
  | 0 => '0' | 1 => '1' | 2 => '2' | 3 => '3' | 4 => '4'
  | 5 => '5' | 6 => '6' | 7 => '7' | 8 => '8' | 9 => '9'
  | _ => '?'

/-- Character to decimal digit value (only meaningful on `'0'`-`'9'`). -/
def digitVal (c : Char) : Nat := c.toNat - 48

/-- Little-endian decimal digits of `n`, with explicit fuel so that the
definition is structural (and kernel-reducible). -/
def natDigitsRev : Nat → Nat → List Nat
  | 0, _ => []
  | fuel + 1, n => if n = 0 then [] else n % 10 :: natDigitsRev fuel (n / 10)

/-- Python's `str(n)` for a nonnegative integer. -/
def natStr (n : Nat) : Str :=
  if n = 0 then ['0'] else ((natDigitsRev n n).map digitChar).reverse

/-- Python's `str(n)` for an integer. -/
def intStr : Int → Str
  | .ofNat n => natStr n
  | .negSucc m => '-' :: natStr (m + 1)

/-- Numeric value of a string of decimal digits (most significant first). -/
def digitsVal (s : Str) : Nat := s.foldl (fun a c => 10 * a + (c.toNat - 48)) 0

/-- Parse a nonempty all-digit string. -/
def parseNatDigits (s : Str) : Option Nat :=
  if s ≠ [] ∧ s.all Char.isDigit then some (digitsVal s) else none

/-- Sign handling of Python's numeric string parsing: an optional leading
`'-'` or `'+'`. -/
def numSign : Str → Bool × Str
  | [] => (false, [])
  | c :: r =>
    if c = '-' then (true, r)
    else if c = '+' then (false, r)
    else (false, c :: r)

/-- Python's `int(s)` on strings: optional surrounding whitespace, optional
sign, one or more decimal digits; `none` models `ValueError`. -/
def parseIntStr (s : Str) : Option Int :=
  let q := numSign (stripWS s)
  (parseNatDigits q.2).map fun m => if q.1 then -(m : Int) else (m : Int)

/-- A Python float, modelled as an exact decimal number: sign, integer part
and fraction digits (most significant first). -/
structure PyFloat where
  neg : Bool
  ip : Nat
  fp : List Nat
deriving DecidableEq, Repr

/-- Strip trailing zeros from a fraction-digit list (the canonical form:
`float("5.10") == float("5.1")`). -/
def fracNorm (l : List Nat) : List Nat := (l.reverse.dropWhile (· == 0)).reverse

/-- Canonical floats: decimal digits, no trailing zero in the fraction.
These are exactly the values `parseFloatStr` produces. -/
def PyFloat.Normal (f : PyFloat) : Prop :=
  (∀ d ∈ f.fp, d < 10) ∧ fracNorm f.fp = f.fp

instance (f : PyFloat) : Decidable f.Normal := by
  unfold PyFloat.Normal; infer_instance

/-- CPython 2.7 `str(f)` on the exact-decimal subset: sign, integer part,
`'.'`, fraction digits (`".0"` when the fraction is empty, as Python always
prints a decimal point). -/
def PyFloat.render (f : PyFloat) : Str :=
  (if f.neg then ['-'] else []) ++ natStr f.ip ++
    '.' :: (if f.fp.isEmpty then ['0'] else f.fp.map digitChar)

/-- Python's `float(s)` on the exact-decimal subset: optional whitespace and
sign, then `digits`, `digits.digits`, `digits.` or `.digits`;
`none` models `ValueError`. -/
def parseFloatStr (s : Str) : Option PyFloat :=
  let q := numSign (stripWS s)
  match splitOnChar '.' q.2 with
  | [ds] =>
    if ds ≠ [] ∧ ds.all Char.isDigit then some ⟨q.1, digitsVal ds, []⟩ else none
  | [ds, fs] =>
    if (ds ≠ [] ∨ fs ≠ []) ∧ ds.all Char.isDigit ∧ fs.all Char.isDigit then
      some ⟨q.1, digitsVal ds, fracNorm (fs.map digitVal)⟩
    else none
  | _ => none

example : splitOnChar ';' "a;b;".data = ["a".data, "b".data, "".data] := by decide
example : natStr 192 = "192".data := by decide
example : intStr (-15) = "-15".data := by decide
example : parseIntStr " 25 ".data = some 25 := by decide
example : parseIntStr "0.0".data = none := by decide
example : parseFloatStr "0.0".data = some ⟨false, 0, []⟩ := by decide
example : parseFloatStr " 2.50".data = some ⟨false, 2, [5]⟩ := by decide
example : parseFloatStr "5.".data = some ⟨false, 5, []⟩ := by decide
example : parseFloatStr "a".data = none := by decide
example : PyFloat.render ⟨false, 0, []⟩ = "0.0".data := by decide
example : PyFloat.render ⟨true, 2, [5]⟩ = "-2.5".data := by decide

/-! ## Values

A value stored through `History.Add` (§3 of the design: integer, float,
boolean, null, string, 3-tuple of integers, flat list of scalars). -/

/-- A scalar value (also the element type of stored lists). -/
inductive Scalar where
  | int (n : Int)
  | float (f : PyFloat)
  | bool (b : Bool)
  | none
  | str (s : Str)
deriving DecidableEq, Repr

/-- A storable value. -/
inductive PyVal where
  | scalar (s : Scalar)
  | color (r g b : Int)
  | list (xs : List Scalar)
deriving DecidableEq, Repr

/-- Python's `str(x)` on scalars (`str` and `repr` agree on the modelled
subset except for strings). -/
def scalarStr : Scalar → Str
  | .int n => intStr n
  | .float f => f.render
  | .bool true => "True".data
  | .bool false => "False".data
  | .none => "None".data
  | .str s => s

/-- Python's `repr(x)` on scalars, as used for the elements of `str(list)`;
a string gets its quoting markers.  (Escaping inside string literals is not
modelled; the stored strings of the dialog need none.) -/
def scalarRepr : Scalar → Str
  | .str s => '\'' :: s ++ ['\'']
  | v => scalarStr v

/-- `History._parseValue(value)` with `read = False` (lines 2301-2307):
a tuple is turned into the colon-joined string of its parts, everything
else is passed through. -/
def parseValueWrite : PyVal → PyVal
  | .color r g b => .scalar (.str (intStr r ++ ':' :: intStr g ++ ':' :: intStr b))
  | v => v

/-- Python's `'%s' % value`, i.e. `str(value)`, for the storable values:
scalars stringify directly, a list becomes `[repr1, repr2, ...]` with a
comma-space separator, a tuple becomes `(repr1, repr2, repr3)`. -/
def pyStr : PyVal → Str
  | .scalar s => scalarStr s
  | .list xs => '[' :: joinSep ", ".data (xs.map scalarRepr) ++ [']']
  | .color r g b => '(' :: joinSep ", ".data [intStr r, intStr g, intStr b] ++ [')']

/-- The string actually written for a value by `_saveNewHistStep`
(lines 2256 and 2264): `'%s' % self._parseValue(value)`. -/
def encodeTop (v : PyVal) : Str := pyStr (parseValueWrite v)

/-- A scalar as produced by reading back (`_castValue` returns an int, a
float, or a string). -/
inductive DScalar where
  | int (n : Int)
  | float (f : PyFloat)
  | str (s : Str)
deriving DecidableEq, Repr

/-- A value as produced by reading back (`_parseValue(read = True)`):
note that the tuple branch produces a tuple of any arity. -/
inductive DVal where
  | int (n : Int)
  | float (f : PyFloat)
  | bool (b : Bool)
  | none
  | str (s : Str)
  | color (ns : List Int)
  | list (xs : List DScalar)
deriving DecidableEq, Repr

/-- `History._castValue` (lines 2309-2318): try `int`, then `float`, else
strip the first and last character (the quoting markers). -/
def castValue (v : Str) : DScalar :=
  match parseIntStr v with
  | some n => .int n
  | Option.none =>
    match parseFloatStr v with
    | some f => .float f
    | Option.none => .str ((v.drop 1).dropLast)

/-- Python's `tuple(map(int, pieces))` inside a `try`: all pieces must
parse as integers, otherwise the `ValueError` is caught (`none`). -/
def parseIntsAll : List Str → Option (List Int)
  | [] => some []
  | p :: ps =>
    match parseIntStr p, parseIntsAll ps with
    | some n, some ns => some (n :: ns)
    | _, _ => none

/-- `History._parseValue(value, read = True)` (lines 2274-2300): bracketed
strings are split on commas and element-cast; then literal `True`, `False`,
`None`; then a colon-containing string is tentatively an integer tuple;
then `int`, then `float`, else the string itself. -/
def parseValueRead (v : Str) : DVal :=
  if v.head? = some '[' ∧ v.getLast? = some ']' then
    .list ((splitOnChar ',' ((v.drop 1).dropLast)).map castValue)
  else if v = "True".data then .bool true
  else if v = "False".data then .bool false
  else if v = "None".data then .none
  else if ':' ∈ v then
    match parseIntsAll (splitOnChar ':' v) with
    | some ns => .color ns
    | Option.none => .str v
  else
    match parseIntStr v with
    | some n => .int n
    | Option.none =>
      match parseFloatStr v with
      | some f => .float f
      | Option.none => .str v

/-- The canonical reading of a stored scalar (what a faithful decoder
ought to return for it). -/
def toDScalar : Scalar → DScalar
  | .int n => .int n
  | .float f => .float f
  | .str s => .str s
  | .bool _ => .str []
  | .none => .str []

/-- The canonical reading of a stored value: the injection of the written
value into the type of read-back values. -/
def toD : PyVal → DVal
  | .scalar (.int n) => .int n
  | .scalar (.float f) => .float f
  | .scalar (.bool b) => .bool b
  | .scalar .none => .none
  | .scalar (.str s) => .str s
  | .color r g b => .color [r, g, b]
  | .list xs => .list (xs.map toDScalar)

/-- List elements whose write/read round trip is exact: integers and
canonical floats.  (Booleans, `None` and strings inside a list are mangled
by `_castValue`, which only knows ints, floats and quoted strings.) -/
def goodElem : Scalar → Prop
  | .int _ => True
  | .float f => f.Normal
  | _ => False

instance (s : Scalar) : Decidable (goodElem s) := by
  cases s <;> simp [goodElem] <;> infer_instance

/-- Values whose write/read round trip is exact: every non-string scalar
(with floats in canonical form), integer color triples, and nonempty lists
of integers/floats. -/
def goodVal : PyVal → Prop
  | .scalar (.str _) => False
  | .scalar (.float f) => f.Normal
  | .scalar _ => True
  | .color _ _ _ => True
  | .list xs => xs ≠ [] ∧ ∀ x ∈ xs, goodElem x

instance (v : PyVal) : Decidable (goodVal v) := by
  cases v with
  | scalar s => cases s <;> simp [goodVal] <;> infer_instance
  | color r g b => simp [goodVal]; infer_instance
  | list xs => simp [goodVal]; infer_instance

example : encodeTop (.color 192 0 0) = "192:0:0".data := by decide
example : encodeTop (.list [.int 1, .int 2, .int 3]) = "[1, 2, 3]".data := by decide
example : encodeTop (.list [.float ⟨false, 1, []⟩, .float ⟨false, 2, []⟩]) = "[1.0, 2.0]".data := by decide
example : encodeTop (.scalar (.str "abc".data)) = "abc".data := by decide
example : parseValueRead "192:0:0".data = .color [192, 0, 0] := by decide
example : parseValueRead "[1, 2, 3]".data = .list [.int 1, .int 2, .int 3] := by decide
example : parseValueRead "[1.0, 2.0]".data = .list [.float ⟨false, 1, []⟩, .float ⟨false, 2, []⟩] := by decide
example : parseValueRead "True".data = .bool true := by decide
example : parseValueRead "".data = .str [] := by decide
example : parseValueRead "5".data = .int 5 := by decide
example : parseValueRead "0.0".data = .float ⟨false, 0, []⟩ := by decide
example : parseValueRead "[]".data = .list [.str []] := by decide
example : parseValueRead (encodeTop (.scalar (.str "5".data))) = .int 5 := by decide

/-! ## Step data

`newHistStepData` is a dict from a top-level key to a dict from subkey to
either a value or a further dict (subkey-group to leaf to value).
Dicts are insertion-ordered association lists here. -/

/-- Lookup in an association list (Python `d[k]` / `k in d`). -/
def getA (k : Str) : List (Str × α) → Option α
  | [] => none
  | (k', v) :: r => if k' = k then some v else getA k r

/-- Update in an association list (Python `d[k] = v`): overwrite in place,
else append. -/
def setA (k : Str) (v : α) : List (Str × α) → List (Str × α)
  | [] => [(k, v)]
  | (k', v') :: r => if k' = k then (k', v) :: r else (k', v') :: setA k v r

/-- A subkey slot of the pending step: a direct value or a subkey-group. -/
inductive SubVal where
  | val (v : PyVal)
  | group (m : List (Str × PyVal))
deriving DecidableEq, Repr

/-- The payload of one step, as accumulated by `Add`. -/
abbrev StepData := List (Str × List (Str × SubVal))

/-- The `subkey` argument of `Add`: a single identifier or a
`[group, leaf]` path. -/
abbrev SubKey := Str ⊕ Str × Str

/-- Decoded subkey slot (read back from the file). -/
inductive DSubVal where
  | val (v : DVal)
  | group (m : List (Str × DVal))
deriving DecidableEq, Repr

/-- Decoded step payload (read back from the file). -/
abbrev DStepData := List (Str × List (Str × DSubVal))

/-- `History.Add` (lines 2172-2182) acting on the pending buffer.  Writing
a `[group, leaf]` path under a name that currently holds a plain value is a
`TypeError` in Python (`none` here). -/
def addData (d : StepData) (key : Str) (sk : SubKey) (v : PyVal) : Option StepData :=
  let es := (getA key d).getD []
  match sk with
  | .inl s => some (setA key (setA s (.val v) es) d)
  | .inr (g, l) =>
    match getA g es with
    | Option.none => some (setA key (setA g (.group [(l, v)]) es) d)
    | some (.group m) => some (setA key (setA g (.group (setA l v m)) es) d)
    | some (.val _) => none

/-- The value stored in the pending buffer at a `(key, subkey)` slot. -/
def slotGet (d : StepData) (key : Str) (sk : SubKey) : Option PyVal :=
  match getA key d with
  | Option.none => none
  | some es =>
    match sk with
    | .inl s =>
      match getA s es with
      | some (.val v) => some v
      | _ => none
    | .inr (g, l) =>
      match getA g es with
      | some (.group m) => getA l m
      | _ => none

/-- The value at a `(key, subkey)` slot of decoded step data. -/
def dslotGet (d : DStepData) (key : Str) (sk : SubKey) : Option DVal :=
  match getA key d with
  | Option.none => none
  | some es =>
    match sk with
    | .inl s =>
      match getA s es with
      | some (.val v) => some v
      | _ => none
    | .inr (g, l) =>
      match getA g es with
      | some (.group m) => getA l m
      | _ => none

/-! ## Serialization (`_saveNewHistStep`, lines 2241-2270)

Within one top-level key the writer emits each subkey-group on a line of
its own (`key;group;leaf;value;...`) and joins maximal runs of consecutive
plain subkeys on one line (`key;subkey;value;...`). -/

/-- A piece of one key's line layout: a maximal run of plain subkeys, or a
single subkey-group. -/
inductive Chunk where
  | run (ps : List (Str × PyVal))
  | grp (g : Str) (m : List (Str × PyVal))
deriving DecidableEq, Repr

/-- Split a key's subkey entries into its line layout. -/
def chunksOf : List (Str × SubVal) → List Chunk
  | [] => []
  | (s, .group m) :: r => .grp s m :: chunksOf r
  | (s, .val v) :: r =>
    match chunksOf r with
    | .run ps :: cs => .run ((s, v) :: ps) :: cs
    | cs => .run [(s, v)] :: cs

/-- The alternating `name;value` fields of a pair list. -/
def pairFields (ps : List (Str × PyVal)) : List Str :=
  (ps.map fun p => [p.1, encodeTop p.2]).flatten

/-- The line a chunk produces under a key (field separator `';'`;
a group writes `group;` first, then its leaf pairs). -/
def chunkLine (key : Str) : Chunk → Str
  | .run ps => key ++ ';' :: joinSep [';'] (pairFields ps)
  | .grp g m => key ++ ';' :: g ++ ';' :: joinSep [';'] (pairFields m)

/-- All lines one top-level key contributes (a key with an empty subkey
dict still writes its `key;` prefix). -/
def linesForKey (key : Str) (es : List (Str × SubVal)) : List Str :=
  match es with
  | [] => [key ++ [';']]
  | _ => (chunksOf es).map (chunkLine key)

/-- The data lines of one step. -/
def stepLines (d : StepData) : List Str :=
  (d.map fun p => linesForKey p.1 p.2).flatten

/-- The header line of the step stored at index `i`. -/
def headerLine (i : Nat) : Str := "history step=".data ++ natStr i

/-- `_saveNewHistStep` (lines 2241-2270): a blank line, the header
`history step=0`, then the data lines of the pending buffer. -/
def saveNewHistStepLines (d : StepData) : List Str :=
  [] :: headerLine 0 :: stepLines d

/-! ## Parsing (`_parseLine`, lines 2346-2373) -/

/-- The subkey/value pair loop of `_parseLine`: insert decoded values into
the accumulated dict, under `master` when the line is a group line.
`none` models the `TypeError` on a group insert over a plain value and the
`IndexError` on a dangling field. -/
def parsePairsInto (key : Str) (master : Option Str) :
    List Str → DStepData → Option DStepData
  | [], acc => some acc
  | [_], _ => none
  | s :: v :: rest, acc =>
    let dv := parseValueRead v
    let es := (getA key acc).getD []
    match master with
    | Option.none => parsePairsInto key Option.none rest (setA key (setA s (.val dv) es) acc)
    | some g =>
      match getA g es with
      | Option.none =>
        parsePairsInto key (some g) rest (setA key (setA g (.group [(s, dv)]) es) acc)
      | some (.group m) =>
        parsePairsInto key (some g) rest (setA key (setA g (.group (setA s dv m)) es) acc)
      | some (.val _) => none

/-- The group-line branch of `_parseLine`: the first field names the
subkey-group. -/
def parseOddFields (key : Str) (kv : List Str) (acc : DStepData) :
    Option DStepData :=
  match kv with
  | g :: rest => parsePairsInto key (some g) rest acc
  | [] => some acc

/-- Dispatch of `_parseLine` on the split fields: an odd number of fields
after the key means the first field is a subkey-group name. -/
def parseFields : List Str → DStepData → Option DStepData
  | [], _ => none
  | key :: kv, acc =>
    if kv.length % 2 = 1 then parseOddFields key kv acc
    else parsePairsInto key Option.none kv acc

/-- `_parseLine`: split on `';'`, then dispatch. -/
def parseLineInto (line : Str) (acc : DStepData) : Option DStepData :=
  parseFields (splitOnChar ';' line) acc

/-! ## The file scan (`_getHistStepData`, lines 2320-2344) -/

/-- `history step=<n>` header index: `line.split("=")` then `int(line[1])`;
`none` models the `IndexError`/`ValueError` on a malformed header. -/
def parseHeaderVal (l : Str) : Option Int :=
  match splitOnChar '=' l with
  | _ :: p1 :: _ => parseIntStr p1
  | _ => none

/-- The scan loop of `_getHistStepData`: a blank line sets the new-step
flag (and stops the scan once the searched step was found); the line after
a blank line is a header and is compared against the target; lines of the
searched step are accumulated. -/
def scanLoop (target : Int) :
    List Str → Bool → Bool → DStepData → Option DStepData
  | [], _, _, acc => some acc
  | l :: ls, newStep, searched, acc =>
    if blankLine l then
      if searched then some acc
      else scanLoop target ls true searched acc
    else
      match (if searched then parseLineInto l acc else some acc) with
      | Option.none => none
      | some acc' =>
        if newStep then
          match parseHeaderVal l with
          | Option.none => none
          | some n => scanLoop target ls false (searched || n == target) acc'
        else scanLoop target ls false searched acc'

/-- `_getHistStepData(histStep)`: scan the backing file for the step whose
stored index is `histStep`; an absent step yields the empty dict. -/
def getHistStepData (target : Int) (file : List Str) : Option DStepData :=
  scanLoop target file false false []

/-! ## Commit (`SaveHistStep` / `_savePreviousHist`, lines 2184-2239) -/

/-- Renumber a header line to `n`: `line.split("=")`, replace field 1,
join with `"="`; `none` models the `IndexError` when there is no `'='`. -/
def renumberLine (l : Str) (n : Nat) : Option Str :=
  match splitOnChar '=' l with
  | p0 :: _ :: rest => some (joinSep ['='] (p0 :: natStr n :: rest))
  | _ => none

/-- The loop of `_savePreviousHist`: old lines are copied (headers
renumbered one higher) while the running step count stays below the cap,
and parsed into the evicted-step map once it reaches the cap.  Returns the
copied lines, the evicted steps, and the final `histStepsNum`. -/
def savePrevLoop (maxH : Nat) :
    List Str → Bool → Nat → Nat → List Str → List (Str × DStepData) →
    Option (List Str × List (Str × DStepData) × Nat)
  | [], _, _, hsn, out, rem => some (out, rem, hsn)
  | l :: ls, newStep, cnt, hsn, out, rem =>
    if blankLine l then savePrevLoop maxH ls true (cnt + 1) hsn out rem
    else if newStep then
      match renumberLine l cnt with
      | Option.none => none
      | some l' =>
        if maxH ≤ cnt then savePrevLoop maxH ls false cnt hsn out (rem ++ [(l', [])])
        else savePrevLoop maxH ls false cnt cnt (out ++ [[], l']) rem
    else
      if maxH ≤ cnt then
        match rem.getLast? with
        | Option.none => none
        | some (hk, hd) =>
          match parseLineInto l hd with
          | Option.none => none
          | some hd' =>
            savePrevLoop maxH ls false cnt hsn out (rem.dropLast ++ [(hk, hd')])
      else savePrevLoop maxH ls false cnt hsn (out ++ [l]) rem

/-! ## The `History` object (lines 2132-2206) -/

/-- The state of a `History` object.  The backing file is its line list;
`currHistStepData` caches the last navigation result, exactly as the
Python attribute does. -/
structure History where
  maxHistSteps : Nat
  currHistStep : Int
  histStepsNum : Nat
  currHistStepData : DStepData
  newHistStepData : StepData
  histFile : List Str
deriving DecidableEq, Repr

/-- `History.__init__`: empty backing file, empty pending buffer. -/
def initHistory : History :=
  { maxHistSteps := 3, currHistStep := 0, histStepsNum := 0,
    currHistStepData := [], newHistStepData := [], histFile := [] }

namespace History

/-- `History.Add(key, subkey, value)`. -/
def Add (h : History) (key : Str) (sk : SubKey) (v : PyVal) : Option History :=
  (addData h.newHistStepData key sk v).map fun d => { h with newHistStepData := d }

/-- `History.GetStepsNum()`. -/
def GetStepsNum (h : History) : Nat := h.histStepsNum

/-- `History.GetCurrHistStep()`. -/
def GetCurrHistStep (h : History) : Int := h.currHistStep

/-- `History.GetPrev()` (lines 2158-2164): increment the offset, load that
step, return its data. -/
def GetPrev (h : History) : Option (DStepData × History) :=
  let c := h.currHistStep + 1
  (getHistStepData c h.histFile).map fun d =>
    (d, { h with currHistStep := c, currHistStepData := d })

/-- `History.GetNext()` (lines 2150-2156): decrement the offset, load that
step, return its data. -/
def GetNext (h : History) : Option (DStepData × History) :=
  let c := h.currHistStep - 1
  (getHistStepData c h.histFile).map fun d =>
    (d, { h with currHistStep := c, currHistStepData := d })

/-- `History.SaveHistStep()` (lines 2184-2206): re-read the cap, reset the
offset, write the pending step as step 0 followed by the renumbered old
steps (evicting from the cap onward), swap the file, clear the pending
buffer, and return the evicted steps. -/
def SaveHistStep (maxH : Nat) (h : History) :
    Option (History × List (Str × DStepData)) :=
  (savePrevLoop maxH h.histFile false 0 0 [] []).map fun (out, rem, hsn) =>
    ({ h with maxHistSteps := maxH, currHistStep := 0, histStepsNum := hsn,
              newHistStepData := [],
              histFile := saveNewHistStepLines h.newHistStepData ++ out },
     rem)

end History

/-- The backing file holding the steps `ds` (newest first), as the commit
cycle produces it: each step is a blank line, a header with its index, and
its data lines. -/
def mkFileFrom (i : Nat) : List StepData → List Str
  | [] => []
  | d :: ds => ([] :: headerLine i :: stepLines d) ++ mkFileFrom (i + 1) ds

/-- The backing file holding the steps `ds`, newest (index 0) first. -/
def mkFile (ds : List StepData) : List Str := mkFileFrom 0 ds


/-! ## Basic lemmas: characters, digits, numerals -/

theorem digitChar_isDigit {d : Nat} (h : d < 10) : (digitChar d).isDigit = true := by
  interval_cases d <;> decide

theorem digitVal_digitChar {d : Nat} (h : d < 10) : digitVal (digitChar d) = d := by
  interval_cases d <;> decide

theorem ne_of_isDigit {c c' : Char} (h : c.isDigit = true) (h' : c'.isDigit = false) :
    c ≠ c' := by
  intro heq
  rw [heq] at h
  exact Bool.noConfusion (h.symm.trans h')

theorem wsChar_eq_false_of_isDigit {c : Char} (h : c.isDigit = true) :
    wsChar c = false := by
  cases hw : wsChar c
  · rfl
  · exfalso
    simp only [wsChar, Bool.or_eq_true, decide_eq_true_eq] at hw
    rcases hw with (((((rfl | rfl) | rfl) | rfl) | rfl) | rfl) <;>
      exact absurd h (by decide)

theorem natDigitsRev_lt_ten : ∀ fuel n d, d ∈ natDigitsRev fuel n → d < 10 := by
  intro fuel
  induction fuel with
  | zero => intro n d h; simp [natDigitsRev] at h
  | succ fuel ih =>
    intro n d h
    by_cases hn : n = 0
    · simp [natDigitsRev, hn] at h
    · simp only [natDigitsRev, if_neg hn, List.mem_cons] at h
      rcases h with rfl | h
      · exact Nat.mod_lt _ (by norm_num)
      · exact ih _ _ h

theorem natStr_all_digits : ∀ {n : Nat} {c : Char}, c ∈ natStr n → c.isDigit = true := by
  intro n c h
  by_cases hn : n = 0
  · subst hn; simp [natStr] at h; subst h; decide
  · simp only [natStr, if_neg hn, List.mem_reverse, List.mem_map] at h
    obtain ⟨d, hd, rfl⟩ := h
    exact digitChar_isDigit (natDigitsRev_lt_ten _ _ _ hd)

theorem natStr_ne_nil (n : Nat) : natStr n ≠ [] := by
  by_cases hn : n = 0
  · subst hn; simp [natStr]
  · simp only [natStr, if_neg hn]
    intro h
    rw [List.reverse_eq_nil_iff, List.map_eq_nil_iff] at h
    have : 0 < n := Nat.pos_of_ne_zero hn
    cases n with
    | zero => exact hn rfl
    | succ m => simp [natDigitsRev, Nat.succ_ne_zero] at h

theorem natDigitsRev_eq_digits :
    ∀ fuel n, n ≤ fuel → natDigitsRev fuel n = Nat.digits 10 n := by
  intro fuel
  induction fuel with
  | zero => intro n h; interval_cases n; simp [natDigitsRev]
  | succ fuel ih =>
    intro n h
    by_cases hn : n = 0
    · subst hn; simp [natDigitsRev]
    · rw [natDigitsRev, if_neg hn, Nat.digits_def' (by norm_num : (1:Nat) < 10) (Nat.pos_of_ne_zero hn)]
      congr 1
      exact ih _ (by
        have : n / 10 < n := Nat.div_lt_self (Nat.pos_of_ne_zero hn) (by norm_num)
        omega)

theorem digitsVal_foldl (b : Str) :
    ∀ x : Nat, b.foldl (fun a c => 10 * a + (c.toNat - 48)) x =
      digitsVal b + x * 10 ^ b.length := by
  induction b with
  | nil => intro x; simp [digitsVal]
  | cons c r ih =>
    intro x
    simp only [List.foldl_cons, digitsVal, List.length_cons]
    rw [ih, ih (10 * 0 + (c.toNat - 48))]
    ring

theorem digitsVal_append (a b : Str) :
    digitsVal (a ++ b) = digitsVal b + digitsVal a * 10 ^ b.length := by
  rw [digitsVal, List.foldl_append]
  exact digitsVal_foldl b (digitsVal a)

theorem digitsVal_revmap (ds : List Nat) (h : ∀ d ∈ ds, d < 10) :
    digitsVal ((ds.map digitChar).reverse) = Nat.ofDigits 10 ds := by
  induction ds with
  | nil => simp [digitsVal, Nat.ofDigits]
  | cons d tl ih =>
    have hd : d < 10 := h d (List.mem_cons_self _ _)
    rw [List.map_cons, List.reverse_cons, digitsVal_append]
    rw [ih (fun x hx => h x (List.mem_cons_of_mem _ hx))]
    have : digitsVal [digitChar d] = d := by
      simp only [digitsVal, List.foldl_cons, List.foldl_nil]
      have := digitVal_digitChar hd
      simp only [digitVal] at this
      omega
    rw [this, Nat.ofDigits_cons]
    simp [Nat.mul_comm]

theorem digitsVal_natStr (n : Nat) : digitsVal (natStr n) = n := by
  by_cases hn : n = 0
  · subst hn; simp [natStr, digitsVal]
  · rw [natStr, if_neg hn, digitsVal_revmap _ (natDigitsRev_lt_ten n n),
      natDigitsRev_eq_digits n n le_rfl, Nat.ofDigits_digits]

theorem parseNatDigits_natStr (n : Nat) : parseNatDigits (natStr n) = some n := by
  rw [parseNatDigits, if_pos, digitsVal_natStr]
  exact ⟨natStr_ne_nil n, List.all_eq_true.2 fun c hc => natStr_all_digits hc⟩

theorem dropWhile_eq_self_of_all {p : Char → Bool} {l : Str}
    (h : ∀ c ∈ l, p c = false) : l.dropWhile p = l := by
  cases l with
  | nil => rfl
  | cons c r => rw [List.dropWhile_cons, h c (List.mem_cons_self _ _)]; simp

theorem stripWS_eq_self {l : Str} (h : ∀ c ∈ l, wsChar c = false) : stripWS l = l := by
  rw [stripWS, dropWhile_eq_self_of_all h,
    dropWhile_eq_self_of_all (fun c hc => h c (List.mem_reverse.1 hc)), List.reverse_reverse]

theorem stripWS_cons_ws {c : Char} {l : Str} (h : wsChar c = true) :
    stripWS (c :: l) = stripWS l := by
  rw [stripWS, stripWS, List.dropWhile_cons, h]; simp

theorem numSign_all_digits {s : Str} (hne : s ≠ [])
    (h : ∀ c ∈ s, c.isDigit = true) : numSign s = (false, s) := by
  cases s with
  | nil => exact absurd rfl hne
  | cons c r =>
    have hc : c.isDigit = true := h c (List.mem_cons_self _ _)
    rw [numSign, if_neg (ne_of_isDigit hc (by decide)),
      if_neg (ne_of_isDigit hc (by decide))]

theorem parseIntStr_natStr (n : Nat) : parseIntStr (natStr n) = some (n : Int) := by
  have hs : stripWS (natStr n) = natStr n :=
    stripWS_eq_self fun c hc => wsChar_eq_false_of_isDigit (natStr_all_digits hc)
  rw [parseIntStr, hs,
    numSign_all_digits (natStr_ne_nil n) (fun c hc => natStr_all_digits hc)]
  simp [parseNatDigits_natStr]

theorem parseIntStr_intStr (n : Int) : parseIntStr (intStr n) = some n := by
  cases n with
  | ofNat m => exact parseIntStr_natStr m
  | negSucc m =>
    have hs : stripWS ('-' :: natStr (m + 1)) = '-' :: natStr (m + 1) :=
      stripWS_eq_self fun c hc => by
        rcases List.mem_cons.1 hc with rfl | hc
        · decide
        · exact wsChar_eq_false_of_isDigit (natStr_all_digits hc)
    rw [intStr, parseIntStr, hs]
    rw [show numSign ('-' :: natStr (m + 1)) = (true, natStr (m + 1)) by
      rw [numSign, if_pos rfl]]
    simp [parseNatDigits_natStr, Int.negSucc_eq]

theorem parseNatDigits_none_of_mem {s : Str} {c : Char} (hc : c ∈ s)
    (hd : c.isDigit = false) : parseNatDigits s = none := by
  rw [parseNatDigits, if_neg]
  rintro ⟨-, hall⟩
  rw [List.all_eq_true] at hall
  rw [hall c hc] at hd
  exact Bool.noConfusion hd

/-! ## Lemmas about `splitOnChar` and `joinSep` -/

theorem splitOnChar_ne_nil (c : Char) (s : Str) : splitOnChar c s ≠ [] := by
  induction s with
  | nil => simp [splitOnChar]
  | cons x xs ih =>
    rw [splitOnChar]
    cases h : splitOnChar c xs with
    | nil => exact absurd h ih
    | cons p ps => by_cases hx : x = c <;> simp [hx]

theorem splitOnChar_sep_cons (c : Char) (xs : Str) :
    splitOnChar c (c :: xs) = [] :: splitOnChar c xs := by
  rw [splitOnChar]
  cases h : splitOnChar c xs with
  | nil => exact absurd h (splitOnChar_ne_nil c xs)
  | cons p ps => simp

theorem splitOnChar_cons_ne {c x : Char} (hx : x ≠ c) {s : Str} {hd : Str}
    {tl : List Str} (h : splitOnChar c s = hd :: tl) :
    splitOnChar c (x :: s) = (x :: hd) :: tl := by
  rw [splitOnChar, h]
  simp [hx]

theorem splitOnChar_not_mem {c : Char} {s : Str} (h : ∀ x ∈ s, x ≠ c) :
    splitOnChar c s = [s] := by
  induction s with
  | nil => rfl
  | cons x xs ih =>
    exact splitOnChar_cons_ne (h x (List.mem_cons_self _ _))
      (ih fun y hy => h y (List.mem_cons_of_mem _ hy))

theorem splitOnChar_append_sep {c : Char} :
    ∀ {p r : Str}, (∀ x ∈ p, x ≠ c) →
      splitOnChar c (p ++ c :: r) = p :: splitOnChar c r := by
  intro p
  induction p with
  | nil => intro r _; rw [List.nil_append, splitOnChar_sep_cons]
  | cons x p' ih =>
    intro r h
    have hx : x ≠ c := h x (List.mem_cons_self _ _)
    rw [List.cons_append]
    exact splitOnChar_cons_ne hx (ih fun y hy => h y (List.mem_cons_of_mem _ hy))

theorem joinSep_split {c : Char} :
    ∀ {ps : List Str}, ps ≠ [] → (∀ p ∈ ps, ∀ x ∈ p, x ≠ c) →
      splitOnChar c (joinSep [c] ps) = ps := by
  intro ps
  induction ps with
  | nil => intro h; exact absurd rfl h
  | cons p tl ih =>
    intro _ h
    cases tl with
    | nil => exact splitOnChar_not_mem (h p (List.mem_cons_self _ _))
    | cons q r =>
      rw [joinSep, List.append_assoc, List.singleton_append,
        splitOnChar_append_sep (h p (List.mem_cons_self _ _)),
        ih (List.cons_ne_nil q r) (fun y hy => h y (List.mem_cons_of_mem _ hy))]

theorem joinSep_commaSpace_split :
    ∀ (p0 : Str) (tl : List Str), (∀ p ∈ p0 :: tl, ∀ x ∈ p, x ≠ ',') →
      splitOnChar ',' (joinSep [',', ' '] (p0 :: tl)) = p0 :: tl.map (' ' :: ·) := by
  intro p0 tl
  induction tl generalizing p0 with
  | nil => intro h; exact splitOnChar_not_mem (h p0 (List.mem_cons_self _ _))
  | cons q r ih =>
    intro h
    have step : joinSep [',', ' '] (p0 :: q :: r) =
        p0 ++ ',' :: (' ' :: joinSep [',', ' '] (q :: r)) := by
      rw [joinSep]; simp
    rw [step, splitOnChar_append_sep (h p0 (List.mem_cons_self _ _))]
    have ihr := ih q (fun y hy => h y (List.mem_cons_of_mem _ hy))
    rw [splitOnChar_cons_ne (by decide : ' ' ≠ ',') ihr]
    simp

/-! ## Float render/parse round trip -/

theorem render_mem {f : PyFloat} (hN : f.Normal) :
    ∀ c ∈ f.render, c.isDigit = true ∨ c = '-' ∨ c = '.' := by
  intro c hc
  rw [PyFloat.render] at hc
  rcases List.mem_append.1 hc with hc | hc
  · rcases List.mem_append.1 hc with hc | hc
    · right; left
      cases hf : f.neg <;> rw [hf] at hc <;> simp at hc
      exact hc
    · left; exact natStr_all_digits hc
  · rcases List.mem_cons.1 hc with rfl | hc
    · right; right; rfl
    · left
      by_cases hfp : f.fp.isEmpty
      · rw [if_pos hfp] at hc
        simp at hc; subst hc; decide
      · rw [if_neg hfp] at hc
        obtain ⟨d, hd, rfl⟩ := List.mem_map.1 hc
        exact digitChar_isDigit (hN.1 d hd)

theorem parseIntStr_of_numSign {s t : Str} {b : Bool} (hws : stripWS s = s)
    (hq : numSign s = (b, t)) :
    parseIntStr s = (parseNatDigits t).map
      fun m => if b then -(m : Int) else (m : Int) := by
  rw [parseIntStr, hws, hq]

theorem parseIntStr_render (f : PyFloat) : parseIntStr f.render = none := by
  have hdot : '.' ∈ natStr f.ip ++ '.' :: (if f.fp.isEmpty then ['0'] else f.fp.map digitChar) := by
    rw [List.mem_append]; right; exact List.mem_cons_self _ _
  have hws : stripWS f.render = f.render := by
    refine stripWS_eq_self fun c hc => ?_
    rw [PyFloat.render] at hc
    rcases List.mem_append.1 hc with hc | hc
    · rcases List.mem_append.1 hc with hc | hc
      · cases hf : f.neg <;> rw [hf] at hc <;> simp at hc
        subst hc; decide
      · exact wsChar_eq_false_of_isDigit (natStr_all_digits hc)
    · rcases List.mem_cons.1 hc with rfl | hc
      · decide
      · by_cases hfp : f.fp.isEmpty
        · rw [if_pos hfp] at hc; simp at hc; subst hc; decide
        · rw [if_neg hfp] at hc
          obtain ⟨d, hd, rfl⟩ := List.mem_map.1 hc
          by_cases hd10 : d < 10
          · exact wsChar_eq_false_of_isDigit (digitChar_isDigit hd10)
          · have : digitChar d = '?' := by
              rcases d with _|_|_|_|_|_|_|_|_|_|d <;> first | omega | rfl
            rw [this]; decide
  cases hf : f.neg
  · have hrn : f.render = natStr f.ip ++ '.' ::
        (if f.fp.isEmpty then ['0'] else f.fp.map digitChar) := by
      rw [PyFloat.render, hf]; simp
    obtain ⟨c, r, hcr⟩ : ∃ c r, natStr f.ip = c :: r := by
      cases h : natStr f.ip with
      | nil => exact absurd h (natStr_ne_nil f.ip)
      | cons c r => exact ⟨c, r, rfl⟩
    have hc : c.isDigit = true := natStr_all_digits (hcr ▸ List.mem_cons_self c r)
    have hq : numSign f.render = (false, f.render) := by
      rw [hrn, hcr, List.cons_append, numSign,
        if_neg (ne_of_isDigit hc (by decide)), if_neg (ne_of_isDigit hc (by decide))]
    rw [parseIntStr_of_numSign hws hq,
      parseNatDigits_none_of_mem (c := '.') (hrn ▸ hdot) (by decide)]
    rfl
  · have hrn : f.render = '-' :: (natStr f.ip ++ '.' ::
        (if f.fp.isEmpty then ['0'] else f.fp.map digitChar)) := by
      rw [PyFloat.render, hf]; simp
    have hq : numSign f.render = (true, natStr f.ip ++ '.' ::
        (if f.fp.isEmpty then ['0'] else f.fp.map digitChar)) := by
      rw [hrn, numSign, if_pos rfl]
    rw [parseIntStr_of_numSign hws hq,
      parseNatDigits_none_of_mem (c := '.') hdot (by decide)]
    rfl

theorem stripWS_render (f : PyFloat) : stripWS f.render = f.render := by
  refine stripWS_eq_self fun c hc => ?_
  rw [PyFloat.render] at hc
  rcases List.mem_append.1 hc with hc | hc
  · rcases List.mem_append.1 hc with hc | hc
    · cases hf : f.neg <;> rw [hf] at hc <;> simp at hc
      subst hc; decide
    · exact wsChar_eq_false_of_isDigit (natStr_all_digits hc)
  · rcases List.mem_cons.1 hc with rfl | hc
    · decide
    · by_cases hfp : f.fp.isEmpty
      · rw [if_pos hfp] at hc; simp at hc; subst hc; decide
      · rw [if_neg hfp] at hc
        obtain ⟨d, hd, rfl⟩ := List.mem_map.1 hc
        by_cases hd10 : d < 10
        · exact wsChar_eq_false_of_isDigit (digitChar_isDigit hd10)
        · have : digitChar d = '?' := by
            rcases d with _|_|_|_|_|_|_|_|_|_|d <;> first | omega | rfl
          rw [this]; decide

theorem numSign_render (f : PyFloat) :
    numSign f.render =
      (f.neg, natStr f.ip ++ '.' ::
        (if f.fp.isEmpty then ['0'] else f.fp.map digitChar)) := by
  cases hf : f.neg
  · have hrn : f.render = natStr f.ip ++ '.' ::
        (if f.fp.isEmpty then ['0'] else f.fp.map digitChar) := by
      rw [PyFloat.render, hf]; simp
    obtain ⟨c, r, hcr⟩ : ∃ c r, natStr f.ip = c :: r := by
      cases h : natStr f.ip with
      | nil => exact absurd h (natStr_ne_nil f.ip)
      | cons c r => exact ⟨c, r, rfl⟩
    have hc : c.isDigit = true := natStr_all_digits (hcr ▸ List.mem_cons_self c r)
    rw [hrn, hcr, List.cons_append, numSign,
      if_neg (ne_of_isDigit hc (by decide)), if_neg (ne_of_isDigit hc (by decide)),
      ← List.cons_append, ← hcr]
  · have hrn : f.render = '-' :: (natStr f.ip ++ '.' ::
        (if f.fp.isEmpty then ['0'] else f.fp.map digitChar)) := by
      rw [PyFloat.render, hf]; simp
    rw [hrn, numSign, if_pos rfl]

theorem parseFloatStr_of_two {s t ds fs : Str} {b : Bool}
    (hws : stripWS s = s) (hq : numSign s = (b, t))
    (hsplit : splitOnChar '.' t = [ds, fs]) :
    parseFloatStr s =
      if (ds ≠ [] ∨ fs ≠ []) ∧ ds.all Char.isDigit ∧ fs.all Char.isDigit then
        some ⟨b, digitsVal ds, fracNorm (fs.map digitVal)⟩
      else none := by
  rw [parseFloatStr, hws, hq, hsplit]

theorem parseFloatStr_render {f : PyFloat} (hN : f.Normal) :
    parseFloatStr f.render = some f := by
  have hfrac : ∀ c ∈ (if f.fp.isEmpty then ['0'] else f.fp.map digitChar),
      c.isDigit = true := by
    intro c hc
    by_cases hfp : f.fp.isEmpty
    · rw [if_pos hfp] at hc; simp at hc; subst hc; decide
    · rw [if_neg hfp] at hc
      obtain ⟨d, hd, rfl⟩ := List.mem_map.1 hc
      exact digitChar_isDigit (hN.1 d hd)
  have hsplit : splitOnChar '.' (natStr f.ip ++ '.' ::
      (if f.fp.isEmpty then ['0'] else f.fp.map digitChar)) =
      [natStr f.ip, (if f.fp.isEmpty then ['0'] else f.fp.map digitChar)] := by
    rw [splitOnChar_append_sep
      (fun x hx => ne_of_isDigit (natStr_all_digits hx) (by decide)),
      splitOnChar_not_mem (fun x hx => ne_of_isDigit (hfrac x hx) (by decide))]
  rw [parseFloatStr_of_two (stripWS_render f) (numSign_render f) hsplit, if_pos]
  · have hvals : ((if f.fp.isEmpty then ['0'] else f.fp.map digitChar).map digitVal) =
        (if f.fp.isEmpty then [0] else f.fp) := by
      by_cases hfp : f.fp.isEmpty
      · rw [if_pos hfp, if_pos hfp]; rfl
      · rw [if_neg hfp, if_neg hfp, List.map_map]
        have : ∀ d ∈ f.fp, (digitVal ∘ digitChar) d = d :=
          fun d hd => digitVal_digitChar (hN.1 d hd)
        rw [List.map_congr_left this]
        exact List.map_id f.fp
    rw [hvals, digitsVal_natStr]
    by_cases hfp : f.fp.isEmpty
    · rw [if_pos hfp]
      have hfp' : f.fp = [] := by rwa [List.isEmpty_iff] at hfp
      congr 1
      cases f
      simp_all [fracNorm]
    · rw [if_neg hfp, hN.2]
  · exact ⟨Or.inl (natStr_ne_nil f.ip),
      List.all_eq_true.2 fun c hc => natStr_all_digits hc,
      List.all_eq_true.2 fun c hc => hfrac c hc⟩

/-! ## Value codec round trip -/

theorem ne_of_mem_not_mem {c : Char} {s t : Str} (hs : c ∈ s) (ht : c ∉ t) :
    s ≠ t := fun h => ht (h ▸ hs)

theorem intStr_mem {n : Int} : ∀ c ∈ intStr n, c.isDigit = true ∨ c = '-' := by
  intro c hc
  cases n with
  | ofNat m => exact Or.inl (natStr_all_digits hc)
  | negSucc m =>
    rcases List.mem_cons.1 hc with rfl | hc
    · exact Or.inr rfl
    · exact Or.inl (natStr_all_digits hc)

theorem intStr_ne_nil (n : Int) : intStr n ≠ [] := by
  cases n with
  | ofNat m => exact natStr_ne_nil m
  | negSucc m => simp [intStr]

theorem render_ne_nil (f : PyFloat) : f.render ≠ [] := by
  rw [PyFloat.render]
  intro h
  rw [List.append_assoc, List.append_eq_nil] at h
  exact absurd h.2 (by simp)

theorem parseIntStr_cons_space (s : Str) : parseIntStr (' ' :: s) = parseIntStr s := by
  unfold parseIntStr
  rw [stripWS_cons_ws (by decide)]

theorem parseFloatStr_cons_space (s : Str) :
    parseFloatStr (' ' :: s) = parseFloatStr s := by
  unfold parseFloatStr
  rw [stripWS_cons_ws (by decide)]

theorem castValue_int (n : Int) : castValue (intStr n) = .int n := by
  rw [castValue, parseIntStr_intStr]

theorem castValue_float {f : PyFloat} (hN : f.Normal) :
    castValue f.render = .float f := by
  rw [castValue, parseIntStr_render, parseFloatStr_render hN]

theorem scalarRepr_int (n : Int) : scalarRepr (.int n) = intStr n := rfl

theorem scalarRepr_float (f : PyFloat) : scalarRepr (.float f) = f.render := rfl

theorem castValue_good {x : Scalar} (hg : goodElem x) :
    castValue (scalarRepr x) = toDScalar x ∧
      castValue (' ' :: scalarRepr x) = toDScalar x := by
  cases x with
  | int n =>
    rw [scalarRepr_int]
    refine ⟨castValue_int n, ?_⟩
    rw [castValue, parseIntStr_cons_space, parseIntStr_intStr]
    rfl
  | float f =>
    rw [scalarRepr_float]
    refine ⟨castValue_float hg, ?_⟩
    rw [castValue, parseIntStr_cons_space, parseIntStr_render,
      parseFloatStr_cons_space, parseFloatStr_render hg]
    rfl
  | bool b => exact absurd hg (by simp [goodElem])
  | none => exact absurd hg (by simp [goodElem])
  | str s => exact absurd hg (by simp [goodElem])

theorem scalarRepr_no_comma {x : Scalar} (hg : goodElem x) :
    ∀ c ∈ scalarRepr x, c ≠ ',' := by
  intro c hc
  cases x with
  | int n =>
    rcases intStr_mem c hc with h | rfl
    · exact ne_of_isDigit h (by decide)
    · decide
  | float f =>
    rcases render_mem hg c hc with h | rfl | rfl
    · exact ne_of_isDigit h (by decide)
    · decide
    · decide
  | bool b => exact absurd hg (by simp [goodElem])
  | none => exact absurd hg (by simp [goodElem])
  | str s => exact absurd hg (by simp [goodElem])

theorem encodeTop_scalar (s : Scalar) : encodeTop (.scalar s) = scalarStr s := rfl

theorem encodeTop_color (r g b : Int) :
    encodeTop (.color r g b) = intStr r ++ ':' :: intStr g ++ ':' :: intStr b := rfl

theorem encodeTop_list (xs : List Scalar) :
    encodeTop (.list xs) = '[' :: joinSep ", ".data (xs.map scalarRepr) ++ [']'] := rfl

theorem ne_of_not_mem_mem {c : Char} {s t : Str} (hs : c ∉ s) (ht : c ∈ t) :
    s ≠ t := fun h => hs (h ▸ ht)

theorem not_list_shape {s : Str} {P : Char → Prop} (hP : ∀ c ∈ s, P c)
    (h4 : ¬ P '[') : ¬(s.head? = some '[' ∧ s.getLast? = some ']') := by
  rintro ⟨h1, -⟩
  cases s with
  | nil => simp at h1
  | cons c r =>
    rw [List.head?_cons, Option.some_inj] at h1
    exact h4 (h1 ▸ hP c (List.mem_cons_self _ _))

theorem scalarStr_int (n : Int) : scalarStr (.int n) = intStr n := rfl

theorem scalarStr_float (f : PyFloat) : scalarStr (.float f) = f.render := rfl

theorem parseValueRead_int (n : Int) : parseValueRead (intStr n) = .int n := by
  have hmem := @intStr_mem n
  have h1 : ¬((intStr n).head? = some '[' ∧ (intStr n).getLast? = some ']') :=
    not_list_shape hmem (by rintro (h | h) <;> simp at h)
  have hT : intStr n ≠ "True".data := by
    refine ne_of_not_mem_mem (c := 'T') (fun hc => ?_) (by decide)
    rcases hmem 'T' hc with h | h <;> simp at h
  have hF : intStr n ≠ "False".data := by
    refine ne_of_not_mem_mem (c := 'F') (fun hc => ?_) (by decide)
    rcases hmem 'F' hc with h | h <;> simp at h
  have hN : intStr n ≠ "None".data := by
    refine ne_of_not_mem_mem (c := 'N') (fun hc => ?_) (by decide)
    rcases hmem 'N' hc with h | h <;> simp at h
  have hC : ¬(':' ∈ intStr n) := by
    intro hc
    rcases hmem ':' hc with h | h <;> simp at h
  rw [parseValueRead, if_neg h1, if_neg hT, if_neg hF, if_neg hN, if_neg hC,
    parseIntStr_intStr]

theorem parseValueRead_float {f : PyFloat} (hNf : f.Normal) :
    parseValueRead f.render = .float f := by
  have hmem := render_mem hNf
  have h1 : ¬(f.render.head? = some '[' ∧ f.render.getLast? = some ']') :=
    not_list_shape hmem (by rintro (h | h | h) <;> simp at h)
  have hT : f.render ≠ "True".data := by
    refine ne_of_not_mem_mem (c := 'T') (fun hc => ?_) (by decide)
    rcases hmem 'T' hc with h | h | h <;> simp at h
  have hF : f.render ≠ "False".data := by
    refine ne_of_not_mem_mem (c := 'F') (fun hc => ?_) (by decide)
    rcases hmem 'F' hc with h | h | h <;> simp at h
  have hN : f.render ≠ "None".data := by
    refine ne_of_not_mem_mem (c := 'N') (fun hc => ?_) (by decide)
    rcases hmem 'N' hc with h | h | h <;> simp at h
  have hC : ¬(':' ∈ f.render) := by
    intro hc
    rcases hmem ':' hc with h | h | h <;> simp at h
  rw [parseValueRead, if_neg h1, if_neg hT, if_neg hF, if_neg hN, if_neg hC,
    parseIntStr_render, parseFloatStr_render hNf]

theorem intStr_ne_colon {n : Int} : ∀ x ∈ intStr n, x ≠ ':' := by
  intro x hx
  rcases intStr_mem x hx with h | h
  · exact ne_of_isDigit h (by decide)
  · subst h; decide

theorem parseValueRead_color (r g b : Int) :
    parseValueRead (intStr r ++ ':' :: intStr g ++ ':' :: intStr b) =
      .color [r, g, b] := by
  set v := intStr r ++ ':' :: intStr g ++ ':' :: intStr b with hv
  have hassoc : v = intStr r ++ ':' :: (intStr g ++ ':' :: intStr b) := by
    rw [hv, List.append_assoc, List.cons_append]
  have hmem : ∀ c ∈ v, c.isDigit = true ∨ c = '-' ∨ c = ':' := by
    intro c hc
    rw [hassoc] at hc
    rcases List.mem_append.1 hc with hc | hc
    · rcases intStr_mem c hc with h | h
      · exact Or.inl h
      · exact Or.inr (Or.inl h)
    · rcases List.mem_cons.1 hc with rfl | hc
      · exact Or.inr (Or.inr rfl)
      · rcases List.mem_append.1 hc with hc | hc
        · rcases intStr_mem c hc with h | h
          · exact Or.inl h
          · exact Or.inr (Or.inl h)
        · rcases List.mem_cons.1 hc with rfl | hc
          · exact Or.inr (Or.inr rfl)
          · rcases intStr_mem c hc with h | h
            · exact Or.inl h
            · exact Or.inr (Or.inl h)
  have hcolon : ':' ∈ v := by
    rw [hassoc, List.mem_append]
    right
    exact List.mem_cons_self _ _
  have h1 : ¬(v.head? = some '[' ∧ v.getLast? = some ']') :=
    not_list_shape hmem (by rintro (h | h | h) <;> simp at h)
  have hT : v ≠ "True".data := ne_of_mem_not_mem hcolon (by decide)
  have hF : v ≠ "False".data := ne_of_mem_not_mem hcolon (by decide)
  have hN : v ≠ "None".data := ne_of_mem_not_mem hcolon (by decide)
  have hsplit : splitOnChar ':' v = [intStr r, intStr g, intStr b] := by
    rw [hassoc, splitOnChar_append_sep intStr_ne_colon,
      splitOnChar_append_sep intStr_ne_colon, splitOnChar_not_mem intStr_ne_colon]
  rw [parseValueRead, if_neg h1, if_neg hT, if_neg hF, if_neg hN, if_pos hcolon,
    hsplit]
  have hmapM : parseIntsAll [intStr r, intStr g, intStr b] = some [r, g, b] := by
    rw [parseIntsAll, parseIntStr_intStr, parseIntsAll, parseIntStr_intStr,
      parseIntsAll, parseIntStr_intStr, parseIntsAll]
  rw [hmapM]

theorem parseValueRead_list {xs : List Scalar} (hne : xs ≠ [])
    (hg : ∀ x ∈ xs, goodElem x) :
    parseValueRead ('[' :: joinSep ", ".data (xs.map scalarRepr) ++ [']']) =
      .list (xs.map toDScalar) := by
  obtain ⟨x0, xt, rfl⟩ : ∃ x0 xt, xs = x0 :: xt := by
    cases xs with
    | nil => exact absurd rfl hne
    | cons a l => exact ⟨a, l, rfl⟩
  set J := joinSep ", ".data ((x0 :: xt).map scalarRepr) with hJ
  have hform : '[' :: J ++ [']'] = '[' :: (J ++ [']']) := by
    rw [List.cons_append]
  rw [hform]
  have h1 : ('[' :: (J ++ [']'])).head? = some '[' ∧
      ('[' :: (J ++ [']'])).getLast? = some ']' := by
    refine ⟨rfl, ?_⟩
    rw [← List.cons_append, List.getLast?_concat]
  rw [parseValueRead, if_pos h1]
  have hdrop : (('[' :: (J ++ [']'])).drop 1).dropLast = J := by
    rw [List.drop_one, List.tail_cons, List.dropLast_concat]
  rw [hdrop]
  have hcomma : ∀ p ∈ scalarRepr x0 :: xt.map scalarRepr, ∀ x ∈ p, x ≠ ',' := by
    intro p hp
    rcases List.mem_cons.1 hp with rfl | hp
    · exact scalarRepr_no_comma (hg x0 (List.mem_cons_self _ _))
    · obtain ⟨x, hx, rfl⟩ := List.mem_map.1 hp
      exact scalarRepr_no_comma (hg x (List.mem_cons_of_mem _ hx))
  have hsplit : splitOnChar ',' J =
      scalarRepr x0 :: (xt.map scalarRepr).map (' ' :: ·) := by
    rw [hJ, List.map_cons]
    exact joinSep_commaSpace_split _ _ hcomma
  have htail : ((xt.map scalarRepr).map (' ' :: ·)).map castValue =
      xt.map toDScalar := by
    rw [List.map_map, List.map_map]
    exact List.map_congr_left fun x hx =>
      (castValue_good (hg x (List.mem_cons_of_mem _ hx))).2
  rw [hsplit, List.map_cons,
    (castValue_good (hg x0 (List.mem_cons_self _ _))).1, htail, List.map_cons]

/-- The value codec round trip: on `goodVal` values the decoder inverts
the encoder exactly. -/
theorem parseValueRead_encodeTop {v : PyVal} (hg : goodVal v) :
    parseValueRead (encodeTop v) = toD v := by
  cases v with
  | scalar s =>
    cases s with
    | int n => exact parseValueRead_int n
    | float f => exact parseValueRead_float hg
    | bool b => cases b <;> decide
    | none => decide
    | str s => exact absurd hg (by simp [goodVal])
  | color r g b => exact parseValueRead_color r g b
  | list xs => exact parseValueRead_list hg.1 hg.2

/-! ## Association list lemmas -/

theorem getA_setA_self {α : Type} (k : Str) (v : α) (d : List (Str × α)) :
    getA k (setA k v d) = some v := by
  induction d with
  | nil => simp [setA, getA]
  | cons p r ih =>
    obtain ⟨k', v'⟩ := p
    by_cases h : k' = k
    · subst h; simp [setA, getA]
    · rw [setA, if_neg h, getA, if_neg h]
      exact ih

theorem getA_setA_ne {α : Type} {k k' : Str} (h : k' ≠ k) (v : α)
    (d : List (Str × α)) : getA k' (setA k v d) = getA k' d := by
  induction d with
  | nil => simp [setA, getA, Ne.symm h]
  | cons p r ih =>
    obtain ⟨k'', v''⟩ := p
    by_cases hk : k'' = k
    · have hne : k'' ≠ k' := fun hh => h (hh ▸ hk)
      rw [setA, if_pos hk, getA, getA, if_neg hne, if_neg hne]
    · rw [setA, if_neg hk, getA, getA]
      by_cases hk' : k'' = k'
      · rw [if_pos hk', if_pos hk']
      · rw [if_neg hk', if_neg hk']
        exact ih

theorem setA_fresh {α : Type} {k : Str} {d : List (Str × α)}
    (h : getA k d = none) (v : α) : setA k v d = d ++ [(k, v)] := by
  induction d with
  | nil => rfl
  | cons p r ih =>
    obtain ⟨k', v'⟩ := p
    rw [getA] at h
    by_cases hk : k' = k
    · rw [if_pos hk] at h; exact absurd h (by simp)
    · rw [if_neg hk] at h
      rw [setA, if_neg hk, List.cons_append, ih h]

theorem getA_append {α : Type} (k : Str) (a b : List (Str × α)) :
    getA k (a ++ b) =
      match getA k a with
      | some v => some v
      | none => getA k b := by
  induction a with
  | nil => simp [getA]
  | cons p r ih =>
    obtain ⟨k', v'⟩ := p
    by_cases hk : k' = k
    · rw [List.cons_append, getA, if_pos hk, getA, if_pos hk]
    · rw [List.cons_append, getA, if_neg hk, getA, if_neg hk]
      exact ih

theorem getA_append_last {α : Type} {k : Str} {pre : List (Str × α)}
    (h : getA k pre = none) (w : α) : getA k (pre ++ [(k, w)]) = some w := by
  rw [getA_append, h]
  simp [getA]

theorem setA_append_last {α : Type} {k : Str} {pre : List (Str × α)}
    (h : getA k pre = none) (v w : α) :
    setA k v (pre ++ [(k, w)]) = pre ++ [(k, v)] := by
  induction pre with
  | nil => simp [setA]
  | cons p r ih =>
    obtain ⟨k', v'⟩ := p
    rw [getA] at h
    by_cases hk : k' = k
    · rw [if_pos hk] at h; exact absurd h (by simp)
    · rw [if_neg hk] at h
      rw [List.cons_append, setA, if_neg hk, List.cons_append, ih h]

theorem getA_eq_none {α : Type} {k : Str} {d : List (Str × α)} :
    getA k d = none ↔ k ∉ d.map Prod.fst := by
  induction d with
  | nil => simp [getA]
  | cons p r ih =>
    obtain ⟨k', v'⟩ := p
    by_cases hk : k' = k
    · subst hk
      rw [getA, if_pos rfl, List.map_cons]
      constructor
      · intro h; exact absurd h (by simp)
      · intro h; exact absurd (List.mem_cons_self _ _) h
    · rw [getA, if_neg hk, List.map_cons, List.mem_cons]
      rw [ih]
      constructor
      · rintro h (rfl | hmem)
        · exact hk rfl
        · exact h hmem
      · intro h hmem
        exact h (Or.inr hmem)

/-! ## Well-formed step data and its decoded reading -/

/-- A string that can sit inside one field of a history line: it contains
no field separator and no newline. -/
def safeStr (s : Str) : Prop := ∀ c ∈ s, c ≠ ';' ∧ c ≠ '\n'

instance (s : Str) : Decidable (safeStr s) := by
  unfold safeStr; infer_instance

/-- Well-formed subkey-group: nonempty (as `Add` guarantees), distinct leaf
names, and every field safe. -/
def WFGroup (m : List (Str × PyVal)) : Prop :=
  m ≠ [] ∧ (m.map Prod.fst).Nodup ∧ ∀ p ∈ m, safeStr p.1 ∧ safeStr (encodeTop p.2)

instance (m : List (Str × PyVal)) : Decidable (WFGroup m) := by
  unfold WFGroup; infer_instance

/-- Well-formed subkey entry. -/
def WFEntry : Str × SubVal → Prop
  | (s, .val v) => safeStr s ∧ safeStr (encodeTop v)
  | (s, .group m) => safeStr s ∧ WFGroup m

instance (e : Str × SubVal) : Decidable (WFEntry e) := by
  obtain ⟨s, sv⟩ := e
  cases sv <;> unfold WFEntry <;> infer_instance

/-- Well-formed top-level key entry: nonempty subkey dict (as `Add`
guarantees), distinct subkey names, well-formed entries. -/
def WFKey : Str × List (Str × SubVal) → Prop
  | (k, es) => safeStr k ∧ es ≠ [] ∧ (es.map Prod.fst).Nodup ∧ ∀ e ∈ es, WFEntry e

instance (p : Str × List (Str × SubVal)) : Decidable (WFKey p) := by
  obtain ⟨k, es⟩ := p
  unfold WFKey; infer_instance

/-- Well-formed step data: what a sequence of `Add` calls with safe names
and values produces. -/
def WFStep (d : StepData) : Prop :=
  (d.map Prod.fst).Nodup ∧ ∀ p ∈ d, WFKey p

instance (d : StepData) : Decidable (WFStep d) := by
  unfold WFStep; infer_instance

/-- The decoded reading of a stored subkey slot. -/
def decodeSubVal : SubVal → DSubVal
  | .val v => .val (parseValueRead (encodeTop v))
  | .group m => .group (m.map fun p => (p.1, parseValueRead (encodeTop p.2)))

/-- The decoded reading of a key's subkey entries. -/
def decodeEntries (es : List (Str × SubVal)) : List (Str × DSubVal) :=
  es.map fun e => (e.1, decodeSubVal e.2)

/-- The decoded reading of a whole step: what parsing the step's serialized
lines yields. -/
def decodeStep (d : StepData) : DStepData :=
  d.map fun p => (p.1, decodeEntries p.2)

/-- Parse a list of data lines in order (`none` as soon as one raises). -/
def parseLines : List Str → DStepData → Option DStepData
  | [], acc => some acc
  | l :: ls, acc =>
    match parseLineInto l acc with
    | some a => parseLines ls a
    | Option.none => none

theorem parseLines_append (xs ys : List Str) (acc : DStepData) :
    parseLines (xs ++ ys) acc =
      match parseLines xs acc with
      | some a => parseLines ys a
      | Option.none => none := by
  induction xs generalizing acc with
  | nil => simp [parseLines]
  | cons l ls ih =>
    rw [List.cons_append, parseLines, parseLines]
    cases parseLineInto l acc with
    | none => rfl
    | some a => exact ih a

/-! ## Round trip of one serialized line -/

theorem pairFields_cons (p : Str × PyVal) (tl : List (Str × PyVal)) :
    pairFields (p :: tl) = p.1 :: encodeTop p.2 :: pairFields tl := by
  simp [pairFields]

theorem pairFields_length (ps : List (Str × PyVal)) :
    (pairFields ps).length = 2 * ps.length := by
  induction ps with
  | nil => rfl
  | cons p tl ih =>
    rw [pairFields_cons, List.length_cons, List.length_cons, ih, List.length_cons]
    ring

theorem pairFields_ne_nil {ps : List (Str × PyVal)} (h : ps ≠ []) :
    pairFields ps ≠ [] := by
  cases ps with
  | nil => exact absurd rfl h
  | cons p tl => rw [pairFields_cons]; simp

theorem pairFields_safe {ps : List (Str × PyVal)}
    (hsafe : ∀ p ∈ ps, safeStr p.1 ∧ safeStr (encodeTop p.2)) :
    ∀ f ∈ pairFields ps, ∀ x ∈ f, x ≠ ';' := by
  induction ps with
  | nil => intro f hf; simp [pairFields] at hf
  | cons p tl ih =>
    intro f hf
    rw [pairFields_cons] at hf
    rcases List.mem_cons.1 hf with rfl | hf
    · exact fun x hx => ((hsafe p (List.mem_cons_self _ _)).1 x hx).1
    · rcases List.mem_cons.1 hf with rfl | hf
      · exact fun x hx => ((hsafe p (List.mem_cons_self _ _)).2 x hx).1
      · exact ih (fun q hq => hsafe q (List.mem_cons_of_mem _ hq)) f hf

theorem parsePairsInto_step_flat {key s venc : Str} {rest : List Str}
    {pre : DStepData} {cur : List (Str × DSubVal)}
    (hpre : getA key pre = none) (hs : getA s cur = none) :
    parsePairsInto key Option.none (s :: venc :: rest) (pre ++ [(key, cur)]) =
      parsePairsInto key Option.none rest
        (pre ++ [(key, cur ++ [(s, .val (parseValueRead venc))])]) := by
  rw [parsePairsInto]
  have h1 : (getA key (pre ++ [(key, cur)])).getD [] = cur := by
    rw [getA_append_last hpre]
    rfl
  simp only [h1]
  rw [setA_fresh hs, setA_append_last hpre]

theorem parsePairsInto_step_grp_new {key g l venc : Str} {rest : List Str}
    {pre : DStepData} {cur : List (Str × DSubVal)}
    (hpre : getA key pre = none) (hg : getA g cur = none) :
    parsePairsInto key (some g) (l :: venc :: rest) (pre ++ [(key, cur)]) =
      parsePairsInto key (some g) rest
        (pre ++ [(key, cur ++ [(g, .group [(l, parseValueRead venc)])])]) := by
  rw [parsePairsInto]
  have h1 : (getA key (pre ++ [(key, cur)])).getD [] = cur := by
    rw [getA_append_last hpre]
    rfl
  simp only [h1, hg]
  rw [setA_fresh hg, setA_append_last hpre]

theorem parsePairsInto_step_grp_ext {key g l venc : Str} {rest : List Str}
    {pre : DStepData} {cur0 : List (Str × DSubVal)} {mcur : List (Str × DVal)}
    (hpre : getA key pre = none) (hg0 : getA g cur0 = none)
    (hl : getA l mcur = none) :
    parsePairsInto key (some g) (l :: venc :: rest)
        (pre ++ [(key, cur0 ++ [(g, .group mcur)])]) =
      parsePairsInto key (some g) rest
        (pre ++ [(key, cur0 ++
          [(g, .group (mcur ++ [(l, parseValueRead venc)]))])]) := by
  rw [parsePairsInto]
  have h1 : (getA key (pre ++ [(key, cur0 ++ [(g, .group mcur)])])).getD [] =
      cur0 ++ [(g, .group mcur)] := by
    rw [getA_append_last hpre]
    rfl
  simp only [h1, getA_append_last hg0]
  rw [setA_fresh hl, setA_append_last hg0, setA_append_last hpre]

theorem parsePairs_run (key : Str) (ps : List (Str × PyVal)) :
    ∀ (pre : DStepData) (cur : List (Str × DSubVal)),
      getA key pre = none →
      (ps.map Prod.fst).Nodup →
      (∀ s ∈ ps.map Prod.fst, getA s cur = none) →
      parsePairsInto key Option.none (pairFields ps) (pre ++ [(key, cur)]) =
        some (pre ++ [(key, cur ++ ps.map fun p =>
          (p.1, DSubVal.val (parseValueRead (encodeTop p.2))))]) := by
  induction ps with
  | nil =>
    intro pre cur hpre _ _
    simp [pairFields, parsePairsInto]
  | cons p tl ih =>
    intro pre cur hpre hnd hfresh
    obtain ⟨s, v⟩ := p
    rw [List.map_cons, List.nodup_cons] at hnd
    have hfresh' : ∀ s' ∈ tl.map Prod.fst,
        getA s' (cur ++ [(s, DSubVal.val (parseValueRead (encodeTop v)))]) =
          none := by
      intro s' hs'
      rw [getA_append, hfresh s'
        (by rw [List.map_cons]; exact List.mem_cons_of_mem _ hs')]
      have hne : s' ≠ s := fun h => hnd.1 (h ▸ hs')
      simp [getA, Ne.symm hne]
    rw [pairFields_cons, parsePairsInto_step_flat hpre
        (hfresh s (by rw [List.map_cons]; exact List.mem_cons_self _ _)),
      ih pre _ hpre hnd.2 hfresh']
    rw [List.map_cons, List.append_assoc]
    rfl

theorem parsePairs_grp (key g : Str) (m : List (Str × PyVal)) :
    ∀ (pre : DStepData) (cur0 : List (Str × DSubVal)) (mcur : List (Str × DVal)),
      getA key pre = none →
      getA g cur0 = none →
      (m.map Prod.fst).Nodup →
      (∀ l ∈ m.map Prod.fst, getA l mcur = none) →
      parsePairsInto key (some g) (pairFields m)
          (pre ++ [(key, cur0 ++ [(g, .group mcur)])]) =
        some (pre ++ [(key, cur0 ++ [(g, .group (mcur ++ m.map fun p =>
          (p.1, parseValueRead (encodeTop p.2))))])]) := by
  induction m with
  | nil =>
    intro pre cur0 mcur hpre hg _ _
    simp [pairFields, parsePairsInto]
  | cons p tl ih =>
    intro pre cur0 mcur hpre hg hnd hfresh
    obtain ⟨l, v⟩ := p
    rw [List.map_cons, List.nodup_cons] at hnd
    have hfresh' : ∀ l' ∈ tl.map Prod.fst,
        getA l' (mcur ++ [(l, parseValueRead (encodeTop v))]) = none := by
      intro l' hl'
      rw [getA_append, hfresh l'
        (by rw [List.map_cons]; exact List.mem_cons_of_mem _ hl')]
      have hne : l' ≠ l := fun h => hnd.1 (h ▸ hl')
      simp [getA, Ne.symm hne]
    rw [pairFields_cons, parsePairsInto_step_grp_ext hpre hg
        (hfresh l (by rw [List.map_cons]; exact List.mem_cons_self _ _)),
      ih pre cur0 _ hpre hg hnd.2 hfresh']
    rw [List.map_cons, List.append_assoc]
    rfl

/-- The decoded entries one chunk's line contributes. -/
def chunkEntriesD : Chunk → List (Str × DSubVal)
  | .run ps => ps.map fun p => (p.1, .val (parseValueRead (encodeTop p.2)))
  | .grp g m => [(g, .group (m.map fun p => (p.1, parseValueRead (encodeTop p.2))))]

/-- The subkey names a chunk occupies. -/
def chunkNames : Chunk → List Str
  | .run ps => ps.map Prod.fst
  | .grp g _ => [g]

/-- Well-formedness of one chunk. -/
def WFChunk : Chunk → Prop
  | .run ps => ps ≠ [] ∧ ∀ p ∈ ps, safeStr p.1 ∧ safeStr (encodeTop p.2)
  | .grp g m => safeStr g ∧ WFGroup m


theorem chunksOf_flat_names (es : List (Str × SubVal)) :
    ((chunksOf es).map chunkNames).flatten = es.map Prod.fst := by
  induction es with
  | nil => rfl
  | cons e r ih =>
    obtain ⟨s, sv⟩ := e
    cases sv with
    | group m =>
      rw [chunksOf, List.map_cons, List.flatten_cons, ih]
      rfl
    | val v =>
      rw [chunksOf]
      cases h : chunksOf r with
      | nil =>
        rw [h] at ih
        simp only [List.map_nil, List.flatten_nil] at ih
        simp only [List.map_cons, List.map_nil, List.flatten_cons,
          List.flatten_nil, chunkNames, List.map_cons]
        rw [← ih]
        rfl
      | cons c cs =>
        rw [h] at ih
        cases c with
        | run ps =>
          simp only [List.map_cons, List.flatten_cons, chunkNames] at ih ⊢
          rw [List.cons_append, ih]
        | grp g m =>
          simp only [List.map_cons, List.flatten_cons, chunkNames] at ih ⊢
          rw [List.map_nil, List.cons_append, List.nil_append, ih]

theorem decodeEntries_cons (e : Str × SubVal) (r : List (Str × SubVal)) :
    decodeEntries (e :: r) = (e.1, decodeSubVal e.2) :: decodeEntries r := rfl

theorem chunksOf_flat_entries (es : List (Str × SubVal)) :
    ((chunksOf es).map chunkEntriesD).flatten = decodeEntries es := by
  induction es with
  | nil => rfl
  | cons e r ih =>
    obtain ⟨s, sv⟩ := e
    cases sv with
    | group m =>
      rw [chunksOf, List.map_cons, List.flatten_cons, ih]
      rfl
    | val v =>
      rw [chunksOf]
      cases h : chunksOf r with
      | nil =>
        rw [h] at ih
        simp only [List.map_nil, List.flatten_nil] at ih
        simp only [List.map_cons, List.map_nil, List.flatten_cons,
          List.flatten_nil, chunkEntriesD]
        rw [decodeEntries_cons, ← ih]
        rfl
      | cons c cs =>
        rw [h] at ih
        cases c with
        | run ps =>
          simp only [List.map_cons, List.flatten_cons, chunkEntriesD] at ih ⊢
          rw [List.cons_append, ih]
          rfl
        | grp g m =>
          simp only [List.map_cons, List.flatten_cons, chunkEntriesD] at ih ⊢
          rw [List.map_nil, List.cons_append, List.nil_append, ih]
          rfl

theorem chunksOf_WF {es : List (Str × SubVal)} (h : ∀ e ∈ es, WFEntry e) :
    ∀ c ∈ chunksOf es, WFChunk c := by
  induction es with
  | nil => intro c hc; simp [chunksOf] at hc
  | cons e r ih =>
    obtain ⟨s, sv⟩ := e
    have he := h (s, sv) (List.mem_cons_self _ _)
    have hr := ih fun e' he' => h e' (List.mem_cons_of_mem _ he')
    cases sv with
    | group m =>
      intro c hc
      rw [chunksOf] at hc
      rcases List.mem_cons.1 hc with rfl | hc
      · exact he
      · exact hr c hc
    | val v =>
      intro c hc
      rw [chunksOf] at hc
      cases hh : chunksOf r with
      | nil =>
        rw [hh] at hc
        simp only [List.mem_cons] at hc
        rcases hc with rfl | hc
        · refine ⟨by simp, ?_⟩
          intro p hp
          rw [List.mem_singleton] at hp
          subst hp
          exact he
        · simp at hc
      | cons c0 cs =>
        rw [hh] at hc
        cases c0 with
        | run ps =>
          have hps := hr (.run ps) (hh ▸ List.mem_cons_self _ _)
          simp only [List.mem_cons] at hc
          rcases hc with rfl | hc
          · refine ⟨by simp, ?_⟩
            intro p hp
            rcases List.mem_cons.1 hp with rfl | hp
            · exact he
            · exact hps.2 p hp
          · exact hr c (hh ▸ (List.mem_cons.2 (Or.inr hc)))
        | grp g m =>
          simp only [List.mem_cons] at hc
          rcases hc with rfl | hc
          · refine ⟨by simp, ?_⟩
            intro p hp
            rw [List.mem_singleton] at hp
            subst hp
            exact he
          · exact hr c (hh ▸ (List.mem_cons.2 hc))

theorem safeStr_semi {s : Str} (h : safeStr s) : ∀ x ∈ s, x ≠ ';' :=
  fun x hx => (h x hx).1

theorem splitOnChar_chunkLine_run {key : Str} {ps : List (Str × PyVal)}
    (hkey : safeStr key) (hne : ps ≠ [])
    (hsafe : ∀ p ∈ ps, safeStr p.1 ∧ safeStr (encodeTop p.2)) :
    splitOnChar ';' (chunkLine key (.run ps)) = key :: pairFields ps := by
  rw [chunkLine, splitOnChar_append_sep (safeStr_semi hkey),
    joinSep_split (pairFields_ne_nil hne) (pairFields_safe hsafe)]

theorem splitOnChar_chunkLine_grp {key g : Str} {m : List (Str × PyVal)}
    (hkey : safeStr key) (hg : safeStr g) (hm : WFGroup m) :
    splitOnChar ';' (chunkLine key (.grp g m)) = key :: g :: pairFields m := by
  have hassoc : chunkLine key (.grp g m) =
      key ++ ';' :: (g ++ ';' :: joinSep [';'] (pairFields m)) := by
    rw [chunkLine, List.append_assoc, List.cons_append]
  rw [hassoc, splitOnChar_append_sep (safeStr_semi hkey),
    splitOnChar_append_sep (safeStr_semi hg),
    joinSep_split (pairFields_ne_nil hm.1) (pairFields_safe hm.2.2)]

theorem parseLineInto_chunk {key : Str} {c : Chunk} {pre : DStepData}
    {cur : List (Str × DSubVal)}
    (hkey : safeStr key) (hpre : getA key pre = none) (hwf : WFChunk c)
    (hnd : (chunkNames c).Nodup)
    (hfresh : ∀ s ∈ chunkNames c, getA s cur = none) :
    parseLineInto (chunkLine key c) (pre ++ [(key, cur)]) =
      some (pre ++ [(key, cur ++ chunkEntriesD c)]) := by
  cases c with
  | run ps =>
    rw [parseLineInto, splitOnChar_chunkLine_run hkey hwf.1 hwf.2, parseFields]
    rw [if_neg (by rw [pairFields_length]; omega)]
    exact parsePairs_run key ps pre cur hpre hnd hfresh
  | grp g m =>
    rw [parseLineInto, splitOnChar_chunkLine_grp hkey hwf.1 hwf.2, parseFields]
    rw [if_pos (by rw [List.length_cons, pairFields_length]; omega), parseOddFields]
    obtain ⟨⟨l0, v0⟩, mt, rfl⟩ : ∃ p0 mt, m = p0 :: mt := by
      cases m with
      | nil => exact absurd rfl hwf.2.1
      | cons p0 mt => exact ⟨p0, mt, rfl⟩
    have hgfresh : getA g cur = none := hfresh g (by simp [chunkNames])
    have hmnd : ((l0, v0) :: mt).map Prod.fst |>.Nodup := hwf.2.2.1
    rw [List.map_cons, List.nodup_cons] at hmnd
    rw [pairFields_cons, parsePairsInto_step_grp_new hpre hgfresh,
      parsePairs_grp key g mt pre cur _ hpre hgfresh hmnd.2 ?lfresh]
    · rw [chunkEntriesD, List.map_cons]
      rfl
    case lfresh =>
      intro l' hl'
      have hne : l' ≠ l0 := fun h => hmnd.1 (h ▸ hl')
      simp [getA, Ne.symm hne]

theorem parsePairsInto_shiftFresh {key : Str} (master : Option Str)
    {fields : List Str} {pre : DStepData} (hpre : getA key pre = none)
    (hne : fields ≠ []) :
    parsePairsInto key master fields pre =
      parsePairsInto key master fields (pre ++ [(key, [])]) := by
  cases fields with
  | nil => exact absurd rfl hne
  | cons f rest =>
    cases rest with
    | nil => rfl
    | cons v rest' =>
      have h0 : (getA key pre).getD [] = ([] : List (Str × DSubVal)) := by
        rw [hpre]; rfl
      have h1 : (getA key (pre ++ [(key, [])])).getD [] =
          ([] : List (Str × DSubVal)) := by
        rw [getA_append_last hpre]
        rfl
      cases master with
      | none =>
        rw [parsePairsInto, parsePairsInto]
        simp only [h0, h1]
        rw [setA_fresh hpre, setA_append_last hpre]
      | some g =>
        rw [parsePairsInto, parsePairsInto]
        simp only [h0, h1, getA]
        rw [setA_fresh hpre, setA_append_last hpre]

theorem parseLineInto_shiftFresh {key : Str} {c : Chunk} {pre : DStepData}
    (hkey : safeStr key) (hpre : getA key pre = none) (hwf : WFChunk c) :
    parseLineInto (chunkLine key c) pre =
      parseLineInto (chunkLine key c) (pre ++ [(key, [])]) := by
  cases c with
  | run ps =>
    rw [parseLineInto, parseLineInto,
      splitOnChar_chunkLine_run hkey hwf.1 hwf.2, parseFields, parseFields,
      if_neg (by rw [pairFields_length]; omega),
      if_neg (by rw [pairFields_length]; omega)]
    exact parsePairsInto_shiftFresh Option.none hpre (pairFields_ne_nil hwf.1)
  | grp g m =>
    rw [parseLineInto, parseLineInto,
      splitOnChar_chunkLine_grp hkey hwf.1 hwf.2, parseFields, parseFields,
      if_pos (by rw [List.length_cons, pairFields_length]; omega),
      if_pos (by rw [List.length_cons, pairFields_length]; omega),
      parseOddFields, parseOddFields]
    exact parsePairsInto_shiftFresh (some g) hpre (pairFields_ne_nil hwf.2.1)

theorem chunkEntriesD_names (c : Chunk) :
    (chunkEntriesD c).map Prod.fst = chunkNames c := by
  cases c with
  | run ps => rw [chunkEntriesD, chunkNames, List.map_map]; rfl
  | grp g m => rfl

theorem parseChunks (key : Str) (cs : List Chunk) :
    ∀ (pre : DStepData) (cur : List (Str × DSubVal)),
      safeStr key →
      getA key pre = none →
      (∀ c ∈ cs, WFChunk c) →
      (cur.map Prod.fst ++ (cs.map chunkNames).flatten).Nodup →
      parseLines (cs.map (chunkLine key)) (pre ++ [(key, cur)]) =
        some (pre ++ [(key, cur ++ (cs.map chunkEntriesD).flatten)]) := by
  induction cs with
  | nil =>
    intro pre cur _ _ _ _
    simp [parseLines]
  | cons c cs' ih =>
    intro pre cur hkey hpre hwf hnd
    rw [List.map_cons, List.flatten_cons] at hnd
    obtain ⟨hcur, hrest, hdisj⟩ := List.nodup_append.1 hnd
    obtain ⟨hcN, hrestN, hdisj2⟩ := List.nodup_append.1 hrest
    have hfresh : ∀ s ∈ chunkNames c, getA s cur = none := by
      intro s hs
      rw [getA_eq_none]
      intro hmem
      exact hdisj hmem (List.mem_append_left _ hs)
    rw [List.map_cons, parseLines,
      parseLineInto_chunk hkey hpre (hwf c (List.mem_cons_self _ _)) hcN hfresh]
    show parseLines (cs'.map (chunkLine key))
        (pre ++ [(key, cur ++ chunkEntriesD c)]) =
      some (pre ++ [(key, cur ++ ((c :: cs').map chunkEntriesD).flatten)])
    rw [ih pre (cur ++ chunkEntriesD c) hkey hpre
      (fun c' hc' => hwf c' (List.mem_cons_of_mem _ hc')) ?nodup]
    · rw [List.map_cons, List.flatten_cons, List.append_assoc]
    case nodup =>
      rw [List.map_append, chunkEntriesD_names]
      rw [List.append_assoc]
      refine List.nodup_append.2 ⟨hcur, List.nodup_append.2 ⟨hcN, hrestN, hdisj2⟩, ?_⟩
      intro a ha hb
      rcases List.mem_append.1 hb with hb | hb
      · exact hdisj ha (List.mem_append_left _ hb)
      · exact hdisj ha (List.mem_append_right _ hb)

theorem chunksOf_ne_nil {es : List (Str × SubVal)} (h : es ≠ []) :
    chunksOf es ≠ [] := by
  cases es with
  | nil => exact absurd rfl h
  | cons e r =>
    obtain ⟨s, sv⟩ := e
    cases sv with
    | group m => rw [chunksOf]; simp
    | val v =>
      rw [chunksOf]
      cases chunksOf r with
      | nil => simp
      | cons c0 cs => cases c0 <;> simp

theorem linesForKey_ne {key : Str} {es : List (Str × SubVal)} (h : es ≠ []) :
    linesForKey key es = (chunksOf es).map (chunkLine key) := by
  cases es with
  | nil => exact absurd rfl h
  | cons e r => rfl

theorem parseLines_shiftFresh {key : Str} {cs : List Chunk} {pre : DStepData}
    (hkey : safeStr key) (hpre : getA key pre = none)
    (hwf : ∀ c ∈ cs, WFChunk c) (hne : cs ≠ []) :
    parseLines (cs.map (chunkLine key)) pre =
      parseLines (cs.map (chunkLine key)) (pre ++ [(key, [])]) := by
  cases cs with
  | nil => exact absurd rfl hne
  | cons c cs' =>
    rw [List.map_cons, parseLines, parseLines,
      parseLineInto_shiftFresh hkey hpre (hwf c (List.mem_cons_self _ _))]

theorem parseLines_linesForKey {key : Str} {es : List (Str × SubVal)}
    {pre : DStepData} (hwfk : WFKey (key, es)) (hpre : getA key pre = none) :
    parseLines (linesForKey key es) pre =
      some (pre ++ [(key, decodeEntries es)]) := by
  obtain ⟨hkey, hne, hnd, hent⟩ := hwfk
  rw [linesForKey_ne hne,
    parseLines_shiftFresh hkey hpre (chunksOf_WF hent) (chunksOf_ne_nil hne),
    parseChunks key (chunksOf es) pre [] hkey hpre (chunksOf_WF hent)
      (by rw [List.map_nil, List.nil_append, chunksOf_flat_names]; exact hnd),
    chunksOf_flat_entries]
  rfl

theorem stepLines_cons (p : Str × List (Str × SubVal)) (d : StepData) :
    stepLines (p :: d) = linesForKey p.1 p.2 ++ stepLines d := by
  rw [stepLines, List.map_cons, List.flatten_cons, stepLines]

theorem decodeStep_cons (p : Str × List (Str × SubVal)) (d : StepData) :
    decodeStep (p :: d) = (p.1, decodeEntries p.2) :: decodeStep d := rfl

theorem parseLines_stepLines (d : StepData) :
    ∀ pre : DStepData,
      WFStep d →
      (∀ k ∈ d.map Prod.fst, getA k pre = none) →
      parseLines (stepLines d) pre = some (pre ++ decodeStep d) := by
  induction d with
  | nil =>
    intro pre _ _
    simp [stepLines, parseLines, decodeStep]
  | cons p d' ih =>
    intro pre hwf hfresh
    obtain ⟨k, es⟩ := p
    rw [List.map_cons] at hfresh
    obtain ⟨hndk, hkeys⟩ := hwf
    rw [List.map_cons, List.nodup_cons] at hndk
    rw [decodeStep_cons, stepLines_cons, parseLines_append,
      parseLines_linesForKey (hkeys (k, es) (List.mem_cons_self _ _))
        (hfresh k (List.mem_cons_self _ _))]
    have hwf' : WFStep d' :=
      ⟨hndk.2, fun q hq => hkeys q (List.mem_cons_of_mem _ hq)⟩
    have hfresh' : ∀ k' ∈ d'.map Prod.fst,
        getA k' (pre ++ [(k, decodeEntries es)]) = none := by
      intro k' hk'
      rw [getA_append, hfresh k' (List.mem_cons_of_mem _ hk')]
      have hne : k' ≠ k := fun h => hndk.1 (h ▸ hk')
      simp [getA, Ne.symm hne]
    show parseLines (stepLines d') (pre ++ [(k, decodeEntries es)]) =
      some (pre ++ ((k, decodeEntries es) :: decodeStep d'))
    rw [ih (pre ++ [(k, decodeEntries es)]) hwf' hfresh', List.append_assoc]
    rfl

/-- The step-level round trip: parsing the lines a step was serialized to
yields exactly its decoded reading. -/
theorem parseLines_stepLines_nil {d : StepData} (hwf : WFStep d) :
    parseLines (stepLines d) [] = some (decodeStep d) := by
  rw [parseLines_stepLines d [] hwf (fun k _ => rfl)]
  rfl

/-! ## The file scan on well-formed files -/

theorem blankLine_false_of_mem {c : Char} {l : Str} (hc : c ∈ l)
    (hw : wsChar c = false) : blankLine l = false := by
  cases hb : blankLine l
  · rfl
  · rw [blankLine, List.all_eq_true] at hb
    rw [hb c hc] at hw
    exact absurd hw (by simp)

theorem linesForKey_semi {key : Str} {es : List (Str × SubVal)} :
    ∀ l ∈ linesForKey key es, ';' ∈ l := by
  intro l hl
  cases es with
  | nil =>
    rw [linesForKey] at hl
    rw [List.mem_singleton] at hl
    subst hl
    exact List.mem_append_right _ (List.mem_singleton.2 rfl)
  | cons e r =>
    rw [linesForKey_ne (by simp)] at hl
    obtain ⟨c, _, rfl⟩ := List.mem_map.1 hl
    cases c with
    | run ps =>
      rw [chunkLine]
      exact List.mem_append_right _ (List.mem_cons_self _ _)
    | grp g m =>
      rw [chunkLine, List.append_assoc, List.cons_append]
      exact List.mem_append_right _ (List.mem_cons_self _ _)

theorem stepLines_nonblank {d : StepData} :
    ∀ l ∈ stepLines d, blankLine l = false := by
  intro l hl
  rw [stepLines] at hl
  obtain ⟨s, hs, hls⟩ := List.mem_flatten.1 hl
  obtain ⟨p, _, rfl⟩ := List.mem_map.1 hs
  exact blankLine_false_of_mem (linesForKey_semi l hls) (by decide)

theorem headerLine_eq (i : Nat) :
    headerLine i = "history step".data ++ '=' :: natStr i := by
  rw [headerLine, show "history step=".data = "history step".data ++ ['='] by decide,
    List.append_assoc]
  rfl

theorem splitOnChar_headerLine (i : Nat) :
    splitOnChar '=' (headerLine i) = ["history step".data, natStr i] := by
  rw [headerLine_eq, splitOnChar_append_sep (by decide),
    splitOnChar_not_mem (fun x hx => ne_of_isDigit (natStr_all_digits hx) (by decide))]

theorem parseHeaderVal_headerLine (i : Nat) :
    parseHeaderVal (headerLine i) = some (i : Int) := by
  rw [parseHeaderVal, splitOnChar_headerLine]
  exact parseIntStr_natStr i

theorem blankLine_headerLine (i : Nat) : blankLine (headerLine i) = false :=
  blankLine_false_of_mem (l := headerLine i)
    (c := 'h') (by rw [headerLine]; exact List.mem_append_left _ (by decide))
    (by decide)

/-- The step whose stored index is `t` in the list `ds` of steps stored at
indices `i, i+1, ...` (empty when absent). -/
def stepAt : List StepData → Nat → Int → DStepData
  | [], _, _ => []
  | d :: ds, i, t => if t = (i : Int) then decodeStep d else stepAt ds (i + 1) t

theorem scanSkip (t : Int) {lines : List Str}
    (hnb : ∀ l ∈ lines, blankLine l = false) (rest : List Str) (acc : DStepData) :
    scanLoop t (lines ++ rest) false false acc = scanLoop t rest false false acc := by
  induction lines with
  | nil => rw [List.nil_append]
  | cons l ls ih =>
    rw [List.cons_append, scanLoop,
      if_neg (by rw [hnb l (List.mem_cons_self _ _)]; simp)]
    exact ih fun l' hl' => hnb l' (List.mem_cons_of_mem _ hl')

theorem scanData (t : Int) {lines : List Str}
    (hnb : ∀ l ∈ lines, blankLine l = false) {rest : List Str}
    (hrest : rest = [] ∨ ∃ tl, rest = [] :: tl) :
    ∀ acc, scanLoop t (lines ++ rest) false true acc = parseLines lines acc := by
  induction lines with
  | nil =>
    intro acc
    rcases hrest with rfl | ⟨tl, rfl⟩
    · rfl
    · rfl
  | cons l ls ih =>
    intro acc
    rw [List.cons_append, scanLoop,
      if_neg (by rw [hnb l (List.mem_cons_self _ _)]; simp), parseLines]
    cases hp : parseLineInto l acc with
    | none => rfl
    | some a => exact ih (fun l' hl' => hnb l' (List.mem_cons_of_mem _ hl')) a

theorem mkFileFrom_shape (i : Nat) (ds : List StepData) :
    mkFileFrom i ds = [] ∨ ∃ tl, mkFileFrom i ds = [] :: tl := by
  cases ds with
  | nil => exact Or.inl rfl
  | cons d ds' =>
    right
    rw [mkFileFrom, List.cons_append]
    exact ⟨_, rfl⟩

theorem scan_mkFileFrom (t : Int) (ds : List StepData) :
    ∀ i, (∀ d ∈ ds, WFStep d) →
      scanLoop t (mkFileFrom i ds) false false [] = some (stepAt ds i t) := by
  induction ds with
  | nil => intro i _; rfl
  | cons d ds' ih =>
    intro i hwf
    rw [mkFileFrom, List.cons_append, List.cons_append]
    have h1 : scanLoop t ([] :: headerLine i ::
        (stepLines d ++ mkFileFrom (i + 1) ds')) false false [] =
        scanLoop t (headerLine i :: (stepLines d ++ mkFileFrom (i + 1) ds'))
          true false [] := rfl
    rw [h1, scanLoop, if_neg (by rw [blankLine_headerLine]; simp)]
    show (match parseHeaderVal (headerLine i) with
      | Option.none => none
      | some n => scanLoop t (stepLines d ++ mkFileFrom (i + 1) ds') false
          (false || (n == t)) []) = some (stepAt (d :: ds') i t)
    rw [parseHeaderVal_headerLine]
    show scanLoop t (stepLines d ++ mkFileFrom (i + 1) ds') false
        (false || ((i : Int) == t)) [] = some (stepAt (d :: ds') i t)
    rw [Bool.false_or]
    cases hb : ((i : Int) == t) with
    | true =>
      have ht : (i : Int) = t := eq_of_beq hb
      rw [scanData t stepLines_nonblank (mkFileFrom_shape (i + 1) ds') [],
        parseLines_stepLines_nil (hwf d (List.mem_cons_self _ _)),
        stepAt, if_pos ht.symm]
    | false =>
      have hne : t ≠ (i : Int) := fun hh => (beq_eq_false_iff_ne.1 hb) hh.symm
      rw [scanSkip t stepLines_nonblank (mkFileFrom (i + 1) ds') [],
        ih (i + 1) (fun d' hd' => hwf d' (List.mem_cons_of_mem _ hd')),
        stepAt, if_neg hne]

theorem getHistStepData_mkFile {ds : List StepData}
    (hwf : ∀ d ∈ ds, WFStep d) (t : Int) :
    getHistStepData t (mkFile ds) = some (stepAt ds 0 t) := by
  rw [getHistStepData, mkFile]
  exact scan_mkFileFrom t ds 0 hwf

theorem stepAt_out (ds : List StepData) :
    ∀ (i : Nat) (t : Int), (t < (i : Int) ∨ (i : Int) + ds.length ≤ t) →
      stepAt ds i t = [] := by
  induction ds with
  | nil => intro i t _; rfl
  | cons d ds' ih =>
    intro i t ht
    rw [List.length_cons] at ht
    push_cast at ht
    have hne : ¬t = (i : Int) := by omega
    rw [stepAt, if_neg hne]
    refine ih (i + 1) t ?_
    push_cast
    omega

theorem stepAt_get (ds : List StepData) :
    ∀ (i j : Nat) (h : j < ds.length),
      stepAt ds i ((i : Int) + (j : Int)) = decodeStep (ds.get ⟨j, h⟩) := by
  induction ds with
  | nil => intro i j h; simp at h
  | cons d ds' ih =>
    intro i j h
    cases j with
    | zero =>
      rw [stepAt, if_pos (by push_cast; omega)]
      rfl
    | succ j' =>
      rw [stepAt, if_neg (by push_cast; omega)]
      have : (i : Int) + (j' + 1 : Nat) = ((i + 1 : Nat) : Int) + (j' : Int) := by
        push_cast; omega
      rw [this, ih (i + 1) j' (by rw [List.length_cons] at h; omega)]
      rfl

/-! ## `_savePreviousHist` on well-formed files -/

theorem joinSep_pair (sep a b : Str) : joinSep sep [a, b] = a ++ sep ++ b := by
  rw [joinSep, joinSep]

theorem renumberLine_headerLine (i n : Nat) :
    renumberLine (headerLine i) n = some (headerLine n) := by
  rw [renumberLine, splitOnChar_headerLine]
  show some (joinSep ['='] ("history step".data :: natStr n :: [])) =
    some (headerLine n)
  rw [joinSep_pair, headerLine_eq n, List.append_assoc]
  rfl

/-- The lines `_savePreviousHist` copies into the new file: the steps whose
new index stays below the cap, renumbered. -/
def keptLines (maxH : Nat) : List StepData → Nat → List Str
  | [], _ => []
  | d :: ds, c =>
    (if c + 1 < maxH then [] :: headerLine (c + 1) :: stepLines d else []) ++
      keptLines maxH ds (c + 1)

/-- The steps `_savePreviousHist` reports as removed, keyed by their
renumbered header line, with their parsed (decoded) data. -/
def remSteps (maxH : Nat) : List StepData → Nat → List (Str × DStepData)
  | [], _ => []
  | d :: ds, c =>
    (if c + 1 < maxH then [] else [(headerLine (c + 1), decodeStep d)]) ++
      remSteps maxH ds (c + 1)

/-- The final `histStepsNum` after `_savePreviousHist`: the new index of
the last kept step (or the starting value when nothing is kept). -/
def lastKept (maxH : Nat) : List StepData → Nat → Nat → Nat
  | [], _, hsn => hsn
  | _ :: ds, c, hsn =>
    lastKept maxH ds (c + 1) (if c + 1 < maxH then c + 1 else hsn)

theorem savePrevData_keep (maxH : Nat) {lines : List Str}
    (hnb : ∀ l ∈ lines, blankLine l = false) (rest : List Str) {cnt : Nat}
    (hc : ¬maxH ≤ cnt) :
    ∀ (hsn : Nat) (out : List Str) (rem : List (Str × DStepData)),
      savePrevLoop maxH (lines ++ rest) false cnt hsn out rem =
        savePrevLoop maxH rest false cnt hsn (out ++ lines) rem := by
  induction lines with
  | nil => intro hsn out rem; rw [List.nil_append, List.append_nil]
  | cons l ls ih =>
    intro hsn out rem
    rw [List.cons_append, savePrevLoop,
      if_neg (by rw [hnb l (List.mem_cons_self _ _)]; simp),
      if_neg hc]
    rw [ih (fun l' hl' => hnb l' (List.mem_cons_of_mem _ hl')) hsn (out ++ [l]) rem,
      List.append_assoc]
    rfl

theorem savePrevData_evict (maxH : Nat) {lines : List Str}
    (hnb : ∀ l ∈ lines, blankLine l = false) (rest : List Str) {cnt : Nat}
    (hc : maxH ≤ cnt) :
    ∀ (hsn : Nat) (out : List Str) (rem0 : List (Str × DStepData))
      (hk : Str) (hd : DStepData),
      savePrevLoop maxH (lines ++ rest) false cnt hsn out (rem0 ++ [(hk, hd)]) =
        match parseLines lines hd with
        | some hd' => savePrevLoop maxH rest false cnt hsn out (rem0 ++ [(hk, hd')])
        | Option.none => none := by
  induction lines with
  | nil => intro hsn out rem0 hk hd; rw [List.nil_append]; rfl
  | cons l ls ih =>
    intro hsn out rem0 hk hd
    rw [List.cons_append, savePrevLoop,
      if_neg (by rw [hnb l (List.mem_cons_self _ _)]; simp)]
    rw [if_neg (by simp), if_pos hc, List.getLast?_concat]
    show (match parseLineInto l hd with
      | Option.none => none
      | some hd1 => savePrevLoop maxH (ls ++ rest) false cnt hsn out
          ((rem0 ++ [(hk, hd)]).dropLast ++ [(hk, hd1)])) =
      (match parseLines (l :: ls) hd with
      | some hd' => savePrevLoop maxH rest false cnt hsn out (rem0 ++ [(hk, hd')])
      | Option.none => none)
    cases hp : parseLineInto l hd with
    | none => rw [parseLines, hp]
    | some hd1 =>
      rw [parseLines, hp, List.dropLast_concat]
      exact ih (fun l' hl' => hnb l' (List.mem_cons_of_mem _ hl')) hsn out rem0 hk hd1

theorem savePrev_mkFileFrom (maxH : Nat) (ds : List StepData)
    (hwf : ∀ d ∈ ds, WFStep d) :
    ∀ (j c hsn : Nat) (out : List Str) (rem : List (Str × DStepData)),
      savePrevLoop maxH (mkFileFrom j ds) false c hsn out rem =
        some (out ++ keptLines maxH ds c, rem ++ remSteps maxH ds c,
          lastKept maxH ds c hsn) := by
  induction ds with
  | nil =>
    intro j c hsn out rem
    rw [mkFileFrom, savePrevLoop, keptLines, remSteps, lastKept,
      List.append_nil, List.append_nil]
  | cons d ds' ih =>
    intro j c hsn out rem
    have hwf' : ∀ d' ∈ ds', WFStep d' :=
      fun d' hd' => hwf d' (List.mem_cons_of_mem _ hd')
    rw [mkFileFrom, List.cons_append, List.cons_append]
    rw [show savePrevLoop maxH ([] :: headerLine j ::
        (stepLines d ++ mkFileFrom (j + 1) ds')) false c hsn out rem =
      savePrevLoop maxH (headerLine j :: (stepLines d ++ mkFileFrom (j + 1) ds'))
        true (c + 1) hsn out rem from rfl]
    rw [savePrevLoop, if_neg (by rw [blankLine_headerLine]; simp), if_pos rfl,
      renumberLine_headerLine]
    show (if maxH ≤ c + 1 then
        savePrevLoop maxH (stepLines d ++ mkFileFrom (j + 1) ds') false (c + 1)
          hsn out (rem ++ [(headerLine (c + 1), [])])
      else
        savePrevLoop maxH (stepLines d ++ mkFileFrom (j + 1) ds') false (c + 1)
          (c + 1) (out ++ [[], headerLine (c + 1)]) rem) =
      some (out ++ keptLines maxH (d :: ds') c,
        rem ++ remSteps maxH (d :: ds') c, lastKept maxH (d :: ds') c hsn)
    by_cases hcap : maxH ≤ c + 1
    · rw [if_pos hcap,
        savePrevData_evict maxH stepLines_nonblank (mkFileFrom (j + 1) ds') hcap
          hsn out rem (headerLine (c + 1)) [],
        parseLines_stepLines_nil (hwf d (List.mem_cons_self _ _))]
      show savePrevLoop maxH (mkFileFrom (j + 1) ds') false (c + 1) hsn out
          (rem ++ [(headerLine (c + 1), decodeStep d)]) =
        some (out ++ keptLines maxH (d :: ds') c,
          rem ++ remSteps maxH (d :: ds') c, lastKept maxH (d :: ds') c hsn)
      rw [ih hwf' (j + 1) (c + 1) hsn out
        (rem ++ [(headerLine (c + 1), decodeStep d)])]
      rw [keptLines, remSteps, lastKept,
        if_neg (by omega), if_neg (by omega), if_neg (by omega)]
      rw [List.nil_append, List.append_assoc]
    · rw [if_neg hcap,
        savePrevData_keep maxH stepLines_nonblank (mkFileFrom (j + 1) ds') hcap
          (c + 1) (out ++ [[], headerLine (c + 1)]) rem,
        ih hwf' (j + 1) (c + 1) (c + 1) (out ++ [[], headerLine (c + 1)] ++ stepLines d) rem]
      rw [keptLines, remSteps, lastKept,
        if_pos (by omega), if_pos (by omega), if_pos (by omega)]
      rw [List.nil_append, List.append_assoc, List.append_assoc]
      rfl

theorem keptLines_eq (maxH : Nat) (ds : List StepData) :
    ∀ c, keptLines maxH ds c = mkFileFrom (c + 1) (ds.take (maxH - 1 - c)) := by
  induction ds with
  | nil => intro c; rw [keptLines, List.take_nil, mkFileFrom]
  | cons d ds' ih =>
    intro c
    by_cases hc : c + 1 < maxH
    · rw [keptLines, if_pos hc,
        show maxH - 1 - c = (maxH - 1 - (c + 1)) + 1 from by omega,
        List.take_succ_cons, mkFileFrom, ih (c + 1)]
    · rw [keptLines, if_neg hc,
        show maxH - 1 - c = 0 from by omega, List.take_zero, mkFileFrom,
        List.nil_append, ih (c + 1),
        show maxH - 1 - (c + 1) = 0 from by omega, List.take_zero, mkFileFrom]

theorem lastKept_min (maxH : Nat) (ds : List StepData) :
    ∀ c, lastKept maxH ds c (min c (maxH - 1)) =
      min (c + ds.length) (maxH - 1) := by
  induction ds with
  | nil => intro c; rw [lastKept, List.length_nil, Nat.add_zero]
  | cons d ds' ih =>
    intro c
    rw [lastKept,
      show (if c + 1 < maxH then c + 1 else min c (maxH - 1)) =
        min (c + 1) (maxH - 1) from by split <;> omega,
      ih (c + 1), List.length_cons]
    congr 1
    omega

theorem remSteps_nil (maxH : Nat) (ds : List StepData) :
    ∀ c, c + ds.length < maxH → remSteps maxH ds c = [] := by
  induction ds with
  | nil => intro c _; rfl
  | cons d ds' ih =>
    intro c hc
    rw [List.length_cons] at hc
    rw [remSteps, if_pos (by omega), List.nil_append, ih (c + 1) (by omega)]

theorem remSteps_length (maxH : Nat) (ds : List StepData) :
    ∀ c, (remSteps maxH ds c).length = ds.length - (maxH - 1 - c) := by
  induction ds with
  | nil => intro c; rw [remSteps, List.length_nil, List.length_nil, Nat.zero_sub]
  | cons d ds' ih =>
    intro c
    by_cases hc : c + 1 < maxH
    · rw [remSteps, if_pos hc, List.nil_append, ih (c + 1), List.length_cons]
      omega
    · rw [remSteps, if_neg hc, List.singleton_append, List.length_cons,
        ih (c + 1), List.length_cons]
      omega

theorem remSteps_vals (maxH : Nat) (ds : List StepData) :
    ∀ c, (remSteps maxH ds c).map Prod.snd =
      (ds.drop (maxH - 1 - c)).map decodeStep := by
  induction ds with
  | nil => intro c; rw [remSteps, List.drop_nil]; rfl
  | cons d ds' ih =>
    intro c
    by_cases hc : c + 1 < maxH
    · rw [remSteps, if_pos hc, List.nil_append, ih (c + 1),
        show maxH - 1 - c = (maxH - 1 - (c + 1)) + 1 from by omega,
        List.drop_succ_cons]
    · rw [remSteps, if_neg hc, List.singleton_append, List.map_cons, ih (c + 1),
        show maxH - 1 - c = 0 from by omega,
        show maxH - 1 - (c + 1) = 0 from by omega,
        List.drop_zero, List.drop_zero, List.map_cons]

theorem remSteps_last (maxH : Nat) (ds : List StepData) :
    ∀ c, c + ds.length = maxH → ∀ (hne : ds ≠ []),
      remSteps maxH ds c = [(headerLine maxH, decodeStep (ds.getLast hne))] := by
  induction ds with
  | nil => intro c _ hne; exact absurd rfl hne
  | cons d ds' ih =>
    intro c hc hne
    rw [List.length_cons] at hc
    cases ds' with
    | nil =>
      rw [List.length_nil] at hc
      rw [remSteps, if_neg (by omega), remSteps, List.append_nil,
        show c + 1 = maxH from by omega]
      rfl
    | cons e es =>
      rw [List.length_cons] at hc
      have hne' : e :: es ≠ [] := by simp
      rw [remSteps, if_pos (by omega), List.nil_append,
        ih (c + 1) (by rw [List.length_cons]; omega) hne',
        List.getLast_cons hne']

/-- The full specification of one commit on a well-formed history file:
the new file holds the pending step at index 0 followed by the first
`maxH - 1` old steps renumbered; the old steps from position `maxH - 1` on
are returned, decoded, as the removed map; `currHistStep` resets to 0; the
pending buffer is cleared; `histStepsNum` becomes the new index of the
oldest retained step. -/
theorem SaveHistStep_spec {h : History} {ds : List StepData} (maxH : Nat)
    (hfile : h.histFile = mkFile ds) (hwf : ∀ d ∈ ds, WFStep d) :
    h.SaveHistStep maxH = some
      ({ maxHistSteps := maxH, currHistStep := 0,
         histStepsNum := min ds.length (maxH - 1),
         currHistStepData := h.currHistStepData,
         newHistStepData := [],
         histFile := mkFile (h.newHistStepData :: ds.take (maxH - 1)) },
       remSteps maxH ds 0) := by
  rw [History.SaveHistStep, hfile, mkFile,
    savePrev_mkFileFrom maxH ds hwf 0 0 0 [] []]
  show some _ = some _
  congr 1
  have hout : ([] : List Str) ++ keptLines maxH ds 0 =
      mkFileFrom 1 (ds.take (maxH - 1)) := by
    rw [List.nil_append, keptLines_eq maxH ds 0, Nat.sub_zero, Nat.zero_add]
  have hhsn : lastKept maxH ds 0 0 = min ds.length (maxH - 1) := by
    have hmin := lastKept_min maxH ds 0
    rw [Nat.zero_min, Nat.zero_add] at hmin
    exact hmin
  rw [hout, hhsn]
  rfl

/-! ## Navigation on well-formed files -/

theorem GetPrev_spec {h : History} {ds : List StepData}
    (hfile : h.histFile = mkFile ds) (hwf : ∀ d ∈ ds, WFStep d) :
    h.GetPrev = some (stepAt ds 0 (h.currHistStep + 1),
      { h with currHistStep := h.currHistStep + 1,
               currHistStepData := stepAt ds 0 (h.currHistStep + 1) }) := by
  rw [History.GetPrev, hfile, getHistStepData_mkFile hwf]
  rfl

theorem GetNext_spec {h : History} {ds : List StepData}
    (hfile : h.histFile = mkFile ds) (hwf : ∀ d ∈ ds, WFStep d) :
    h.GetNext = some (stepAt ds 0 (h.currHistStep - 1),
      { h with currHistStep := h.currHistStep - 1,
               currHistStepData := stepAt ds 0 (h.currHistStep - 1) }) := by
  rw [History.GetNext, hfile, getHistStepData_mkFile hwf]
  rfl

/-- Iterated `GetNext` (state only). -/
def iterNext : Nat → History → Option History
  | 0, h => some h
  | n + 1, h =>
    match h.GetNext with
    | some (_, h') => iterNext n h'
    | Option.none => none

/-- Iterated `GetPrev` (state only). -/
def iterPrev : Nat → History → Option History
  | 0, h => some h
  | n + 1, h =>
    match h.GetPrev with
    | some (_, h') => iterPrev n h'
    | Option.none => none

theorem iterNext_step {h h1 : History} {d : DStepData}
    (hn : h.GetNext = some (d, h1)) (n : Nat) :
    iterNext (n + 1) h = iterNext n h1 := by
  rw [iterNext, hn]

theorem iterPrev_step {h h1 : History} {d : DStepData}
    (hn : h.GetPrev = some (d, h1)) (n : Nat) :
    iterPrev (n + 1) h = iterPrev n h1 := by
  rw [iterPrev, hn]

theorem iterNext_spec {ds : List StepData} (hwf : ∀ d ∈ ds, WFStep d) :
    ∀ (n : Nat) (h : History), h.histFile = mkFile ds →
      iterNext n h = some { h with
        currHistStep := h.currHistStep - n,
        currHistStepData :=
          if n = 0 then h.currHistStepData
          else stepAt ds 0 (h.currHistStep - n) } := by
  intro n
  induction n with
  | zero =>
    intro h hfile
    rw [iterNext, if_pos rfl,
      show h.currHistStep - ((0 : Nat) : Int) = h.currHistStep from by
        push_cast; ring]
  | succ n ih =>
    intro h hfile
    rw [iterNext_step (GetNext_spec hfile hwf) n, ih _ (by rw [hfile])]
    by_cases hn : n = 0
    · subst hn
      norm_num
    · rw [if_neg hn,
        show h.currHistStep - 1 - (n : Int) =
          h.currHistStep - ((n + 1 : Nat) : Int) from by push_cast; ring,
        if_neg (by omega : ¬n + 1 = 0)]

theorem iterPrev_spec {ds : List StepData} (hwf : ∀ d ∈ ds, WFStep d) :
    ∀ (n : Nat) (h : History), h.histFile = mkFile ds →
      iterPrev n h = some { h with
        currHistStep := h.currHistStep + n,
        currHistStepData :=
          if n = 0 then h.currHistStepData
          else stepAt ds 0 (h.currHistStep + n) } := by
  intro n
  induction n with
  | zero =>
    intro h hfile
    rw [iterPrev, if_pos rfl,
      show h.currHistStep + ((0 : Nat) : Int) = h.currHistStep from by
        push_cast; ring]
  | succ n ih =>
    intro h hfile
    rw [iterPrev_step (GetPrev_spec hfile hwf) n, ih _ (by rw [hfile])]
    by_cases hn : n = 0
    · subst hn
      norm_num
    · rw [if_neg hn,
        show h.currHistStep + 1 + (n : Int) =
          h.currHistStep + ((n + 1 : Nat) : Int) from by push_cast; ring,
        if_neg (by omega : ¬n + 1 = 0)]

/-! ## Slot lookups and the effect of `Add` on slots -/

/-- Slot lookup inside one key's subkey entries. -/
def eslot (es : List (Str × SubVal)) : SubKey → Option PyVal
  | .inl s =>
    match getA s es with
    | some (.val v) => some v
    | _ => Option.none
  | .inr (g, l) =>
    match getA g es with
    | some (.group m) => getA l m
    | _ => Option.none

/-- Slot lookup inside one key's decoded subkey entries. -/
def deslot (des : List (Str × DSubVal)) : SubKey → Option DVal
  | .inl s =>
    match getA s des with
    | some (.val v) => some v
    | _ => Option.none
  | .inr (g, l) =>
    match getA g des with
    | some (.group m) => getA l m
    | _ => Option.none

theorem slotGet_eslot (d : StepData) (key : Str) (sk : SubKey) :
    slotGet d key sk = eslot ((getA key d).getD []) sk := by
  rw [slotGet]
  cases hk : getA key d with
  | none =>
    cases sk with
    | inl s => rfl
    | inr p => obtain ⟨g, l⟩ := p; rfl
  | some es =>
    cases sk with
    | inl s => rfl
    | inr p => obtain ⟨g, l⟩ := p; rfl

theorem dslotGet_deslot (d : DStepData) (key : Str) (sk : SubKey) :
    dslotGet d key sk = deslot ((getA key d).getD []) sk := by
  rw [dslotGet]
  cases hk : getA key d with
  | none =>
    cases sk with
    | inl s => rfl
    | inr p => obtain ⟨g, l⟩ := p; rfl
  | some es =>
    cases sk with
    | inl s => rfl
    | inr p => obtain ⟨g, l⟩ := p; rfl

theorem getA_decodeStep (k : Str) :
    ∀ d : StepData, getA k (decodeStep d) = (getA k d).map decodeEntries
  | [] => rfl
  | (k', es) :: r => by
    rw [decodeStep, List.map_cons, getA, getA]
    by_cases h : k' = k
    · rw [if_pos h, if_pos h, Option.map_some']
    · rw [if_neg h, if_neg h, ← decodeStep, getA_decodeStep k r]

theorem getA_decodeEntries (k : Str) :
    ∀ es : List (Str × SubVal),
      getA k (decodeEntries es) = (getA k es).map decodeSubVal
  | [] => rfl
  | (k', sv) :: r => by
    rw [decodeEntries, List.map_cons, getA, getA]
    by_cases h : k' = k
    · rw [if_pos h, if_pos h, Option.map_some']
    · rw [if_neg h, if_neg h, ← decodeEntries, getA_decodeEntries k r]

theorem getA_decodePairs (k : Str) :
    ∀ m : List (Str × PyVal),
      getA k (m.map fun p => (p.1, parseValueRead (encodeTop p.2))) =
        (getA k m).map fun w => parseValueRead (encodeTop w)
  | [] => rfl
  | (k', w) :: r => by
    rw [List.map_cons, getA, getA]
    by_cases h : k' = k
    · rw [if_pos h, if_pos h, Option.map_some']
    · rw [if_neg h, if_neg h, getA_decodePairs k r]

/-- Reading a slot of the decoded step returns the decoding of the slot's
stored value: the whole write/read pipeline acts slotwise as
`parseValueRead ∘ encodeTop`. -/
theorem decodeStep_slot {d : StepData} {key : Str} {sk : SubKey} {v : PyVal}
    (h : slotGet d key sk = some v) :
    dslotGet (decodeStep d) key sk = some (parseValueRead (encodeTop v)) := by
  rw [slotGet_eslot] at h
  rw [dslotGet_deslot, getA_decodeStep]
  cases hk : getA key d with
  | none =>
    rw [hk] at h
    cases sk with
    | inl s => exact Option.noConfusion h
    | inr p => obtain ⟨g, l⟩ := p; exact Option.noConfusion h
  | some es =>
    rw [Option.map_some', Option.getD_some]
    rw [hk, Option.getD_some] at h
    cases sk with
    | inl s =>
      rw [eslot] at h
      rw [deslot, getA_decodeEntries]
      cases hs : getA s es with
      | none => rw [hs] at h; exact Option.noConfusion h
      | some sv =>
        rw [hs] at h
        cases sv with
        | val w =>
          obtain rfl : w = v := Option.some_inj.1 h
          rfl
        | group m => exact Option.noConfusion h
    | inr p =>
      obtain ⟨g, l⟩ := p
      rw [eslot] at h
      rw [deslot, getA_decodeEntries]
      cases hg : getA g es with
      | none => rw [hg] at h; exact Option.noConfusion h
      | some sv =>
        rw [hg] at h
        cases sv with
        | val w => exact Option.noConfusion h
        | group m =>
          have h2 : getA l m = some v := h
          show getA l (m.map fun p => (p.1, parseValueRead (encodeTop p.2))) =
            some (parseValueRead (encodeTop v))
          rw [getA_decodePairs, h2, Option.map_some']

theorem addData_inl (d : StepData) (key s : Str) (v : PyVal) :
    addData d key (.inl s) v =
      some (setA key (setA s (.val v) ((getA key d).getD [])) d) := rfl

theorem addData_inr (d : StepData) (key g l : Str) (v : PyVal) :
    addData d key (.inr (g, l)) v =
      match getA g ((getA key d).getD []) with
      | Option.none =>
        some (setA key (setA g (.group [(l, v)]) ((getA key d).getD [])) d)
      | some (.group m) =>
        some (setA key (setA g (.group (setA l v m)) ((getA key d).getD [])) d)
      | some (.val _) => Option.none := rfl

/-- `Add` stores the value: reading the written slot back from the pending
buffer returns it (the second `Add` to a slot overwrites the first). -/
theorem addData_self {d d' : StepData} {key : Str} {sk : SubKey} {v : PyVal}
    (h : addData d key sk v = some d') : slotGet d' key sk = some v := by
  cases sk with
  | inl s =>
    rw [addData_inl, Option.some_inj] at h
    subst h
    rw [slotGet_eslot, getA_setA_self, Option.getD_some, eslot, getA_setA_self]
  | inr p =>
    obtain ⟨g, l⟩ := p
    rw [addData_inr] at h
    split at h
    · rw [Option.some_inj] at h
      subst h
      rw [slotGet_eslot, getA_setA_self, Option.getD_some, eslot, getA_setA_self]
      show getA l [(l, v)] = some v
      rw [getA, if_pos rfl]
    · rw [Option.some_inj] at h
      subst h
      rw [slotGet_eslot, getA_setA_self, Option.getD_some, eslot, getA_setA_self]
      show getA l (setA l v _) = some v
      rw [getA_setA_self]
    · exact Option.noConfusion h

/-- Two subkey paths that name disjoint storage in the pending buffer.
(A plain subkey and a group of the same name are NOT independent: `Add` on
the plain subkey replaces the whole group.) -/
def indepSub : SubKey → SubKey → Prop
  | .inl s, .inl s' => s' ≠ s
  | .inl s, .inr q => q.1 ≠ s
  | .inr p, .inl s' => s' ≠ p.1
  | .inr p, .inr q => q.1 ≠ p.1 ∨ q.2 ≠ p.2

instance (a b : SubKey) : Decidable (indepSub a b) := by
  cases a <;> cases b <;> unfold indepSub <;> infer_instance

/-- `Add` leaves every slot under another top-level key, and every
independent slot under the same key, unchanged. -/
theorem addData_frame {d d' : StepData} {key : Str} {sk : SubKey} {v : PyVal}
    (h : addData d key sk v = some d') (key' : Str) (sk' : SubKey)
    (hind : key' ≠ key ∨ indepSub sk sk') :
    slotGet d' key' sk' = slotGet d key' sk' := by
  by_cases hkk : key' = key
  case neg =>
    cases sk with
    | inl s =>
      rw [addData_inl, Option.some_inj] at h
      subst h
      rw [slotGet_eslot, slotGet_eslot, getA_setA_ne hkk]
    | inr p =>
      obtain ⟨g, l⟩ := p
      rw [addData_inr] at h
      split at h
      · rw [Option.some_inj] at h
        subst h
        rw [slotGet_eslot, slotGet_eslot, getA_setA_ne hkk]
      · rw [Option.some_inj] at h
        subst h
        rw [slotGet_eslot, slotGet_eslot, getA_setA_ne hkk]
      · exact Option.noConfusion h
  case pos =>
    subst hkk
    rcases hind with hkk | hind
    · exact absurd rfl hkk
    cases sk with
    | inl s =>
      rw [addData_inl, Option.some_inj] at h
      subst h
      rw [slotGet_eslot, slotGet_eslot, getA_setA_self, Option.getD_some]
      cases sk' with
      | inl s' =>
        have hs' : s' ≠ s := hind
        rw [eslot, eslot, getA_setA_ne hs']
      | inr q =>
        obtain ⟨g', l'⟩ := q
        have hg' : g' ≠ s := hind
        rw [eslot, eslot, getA_setA_ne hg']
    | inr p =>
      obtain ⟨g, l⟩ := p
      rw [addData_inr] at h
      split at h
      case _ hg =>
        rw [Option.some_inj] at h
        subst h
        rw [slotGet_eslot, slotGet_eslot, getA_setA_self, Option.getD_some]
        cases sk' with
        | inl s' =>
          have hs' : s' ≠ g := hind
          rw [eslot, eslot, getA_setA_ne hs']
        | inr q =>
          obtain ⟨g', l'⟩ := q
          have hq : g' ≠ g ∨ l' ≠ l := hind
          by_cases hgg : g' = g
          · subst hgg
            rcases hq with hq | hll
            · exact absurd rfl hq
            rw [eslot, eslot, getA_setA_self, hg]
            show getA l' [(l, v)] = Option.none
            rw [getA, if_neg fun hh => hll hh.symm]
            rfl
          · rw [eslot, eslot, getA_setA_ne hgg]
      case _ m hg =>
        rw [Option.some_inj] at h
        subst h
        rw [slotGet_eslot, slotGet_eslot, getA_setA_self, Option.getD_some]
        cases sk' with
        | inl s' =>
          have hs' : s' ≠ g := hind
          rw [eslot, eslot, getA_setA_ne hs']
        | inr q =>
          obtain ⟨g', l'⟩ := q
          have hq : g' ≠ g ∨ l' ≠ l := hind
          by_cases hgg : g' = g
          · subst hgg
            rcases hq with hq | hll
            · exact absurd rfl hq
            rw [eslot, eslot, getA_setA_self, hg]
            show getA l' (setA l v m) = getA l' m
            exact getA_setA_ne hll v m
          · rw [eslot, eslot, getA_setA_ne hgg]
      case _ => exact Option.noConfusion h

/-- `History.Add` acts on the pending buffer alone: every other field of
the state, in particular the backing file, is untouched. -/
theorem Add_eq {h h' : History} {key : Str} {sk : SubKey} {v : PyVal}
    (ha : h.Add key sk v = some h') :
    addData h.newHistStepData key sk v = some h'.newHistStepData ∧
      h'.histFile = h.histFile ∧ h'.currHistStep = h.currHistStep ∧
      h'.histStepsNum = h.histStepsNum ∧
      h'.currHistStepData = h.currHistStepData ∧
      h'.maxHistSteps = h.maxHistSteps := by
  rw [History.Add] at ha
  cases hd : addData h.newHistStepData key sk v with
  | none => rw [hd] at ha; exact Option.noConfusion ha
  | some p =>
    rw [hd, Option.map_some', Option.some_inj] at ha
    subst ha
    exact ⟨rfl, rfl, rfl, rfl, rfl, rfl⟩

/-! ## Safety of encoded good values, well-formedness helpers -/

theorem safe_of_cases {c : Char}
    (h : c.isDigit = true ∨ c = '-' ∨ c = '.' ∨ c = ':' ∨ c = ',' ∨ c = ' '
      ∨ c = '[' ∨ c = ']') :
    c ≠ ';' ∧ c ≠ '\n' := by
  rcases h with h | rfl | rfl | rfl | rfl | rfl | rfl | rfl
  · exact ⟨ne_of_isDigit h (by decide), ne_of_isDigit h (by decide)⟩
  all_goals exact ⟨by decide, by decide⟩

theorem joinSep_mem {sep : Str} :
    ∀ (l : List Str) {c : Char}, c ∈ joinSep sep l →
      (∃ s ∈ l, c ∈ s) ∨ c ∈ sep
  | [], c, hc => absurd hc (List.not_mem_nil c)
  | [p], c, hc => Or.inl ⟨p, List.mem_cons_self _ _, hc⟩
  | p :: q :: r, c, hc => by
    rw [joinSep] at hc
    rcases List.mem_append.1 hc with hc | hc
    · rcases List.mem_append.1 hc with hc | hc
      · exact Or.inl ⟨p, List.mem_cons_self _ _, hc⟩
      · exact Or.inr hc
    · rcases joinSep_mem (q :: r) hc with ⟨s, hs, hcs⟩ | hc
      · exact Or.inl ⟨s, List.mem_cons_of_mem _ hs, hcs⟩
      · exact Or.inr hc

theorem scalarRepr_good_mem {x : Scalar} (hg : goodElem x) :
    ∀ c ∈ scalarRepr x, c.isDigit = true ∨ c = '-' ∨ c = '.' := by
  intro c hc
  cases x with
  | int n =>
    rw [scalarRepr_int] at hc
    rcases intStr_mem c hc with h | rfl
    · exact Or.inl h
    · exact Or.inr (Or.inl rfl)
  | float f =>
    rw [scalarRepr_float] at hc
    exact render_mem hg c hc
  | bool b => exact absurd hg (by simp [goodElem])
  | none => exact absurd hg (by simp [goodElem])
  | str s => exact absurd hg (by simp [goodElem])

/-- The serialized form of a value with exact round trip never contains a
field separator or a newline, so it survives the line format. -/
theorem encodeTop_safe : ∀ {v : PyVal}, goodVal v → safeStr (encodeTop v) := by
  intro v hg
  cases v with
  | scalar s =>
    cases s with
    | int n =>
      intro c hc
      rw [encodeTop_scalar, scalarStr_int] at hc
      rcases intStr_mem c hc with h | rfl
      · exact safe_of_cases (Or.inl h)
      · exact safe_of_cases (Or.inr (Or.inl rfl))
    | float f =>
      intro c hc
      rw [encodeTop_scalar, scalarStr_float] at hc
      rcases render_mem hg c hc with h | rfl | rfl
      · exact safe_of_cases (Or.inl h)
      · exact safe_of_cases (Or.inr (Or.inl rfl))
      · exact safe_of_cases (Or.inr (Or.inr (Or.inl rfl)))
    | bool b => cases b <;> exact by decide
    | none => exact by decide
    | str s => exact hg.elim
  | color r g b =>
    intro c hc
    rw [encodeTop_color] at hc
    rcases List.mem_append.1 hc with hc | hc
    · rcases List.mem_append.1 hc with hc | hc
      · rcases intStr_mem c hc with h | rfl
        · exact safe_of_cases (Or.inl h)
        · exact safe_of_cases (Or.inr (Or.inl rfl))
      · rcases List.mem_cons.1 hc with rfl | hc
        · exact safe_of_cases (by tauto)
        rcases intStr_mem c hc with h | rfl
        · exact safe_of_cases (Or.inl h)
        · exact safe_of_cases (Or.inr (Or.inl rfl))
    · rcases List.mem_cons.1 hc with rfl | hc
      · exact safe_of_cases (by tauto)
      rcases intStr_mem c hc with h | rfl
      · exact safe_of_cases (Or.inl h)
      · exact safe_of_cases (Or.inr (Or.inl rfl))
  | list xs =>
    intro c hc
    rw [encodeTop_list] at hc
    rcases List.mem_append.1 hc with hc | hc
    · rcases List.mem_cons.1 hc with rfl | hc
      · exact safe_of_cases (by tauto)
      rcases joinSep_mem _ hc with ⟨s, hs, hcs⟩ | hc
      · obtain ⟨x, hx, rfl⟩ := List.mem_map.1 hs
        rcases scalarRepr_good_mem (hg.2 x hx) c hcs with h | h | h
        · exact safe_of_cases (Or.inl h)
        · exact safe_of_cases (by tauto)
        · exact safe_of_cases (by tauto)
      · rcases List.mem_cons.1 hc with rfl | hc
        · exact safe_of_cases (by tauto)
        · rcases List.mem_cons.1 hc with rfl | hc
          · exact safe_of_cases (by tauto)
          · exact absurd hc (List.not_mem_nil c)
    · rcases List.mem_cons.1 hc with rfl | hc
      · exact safe_of_cases (by tauto)
      · exact absurd hc (List.not_mem_nil c)

theorem WFStep_nil : WFStep [] :=
  ⟨List.nodup_nil, fun p hp => absurd hp (List.not_mem_nil p)⟩

/-- One `Add(key, subkey, value)` into an empty pending buffer yields a
well-formed step when the names are safe and the value encodes safely. -/
theorem WFStep_single {key s : Str} {v : PyVal} (hk : safeStr key)
    (hs : safeStr s) (hv : safeStr (encodeTop v)) :
    WFStep [(key, [(s, .val v)])] := by
  refine ⟨by simp, fun p hp => ?_⟩
  rw [List.mem_singleton] at hp
  subst hp
  refine ⟨hk, by simp, by simp, fun e he => ?_⟩
  rw [List.mem_singleton] at he
  subst he
  exact ⟨hs, hv⟩

theorem WF_cons_take {p : StepData} {ds : List StepData} (hp : WFStep p)
    (hwf : ∀ d ∈ ds, WFStep d) (n : Nat) :
    ∀ d ∈ p :: ds.take n, WFStep d := by
  intro d hd
  rcases List.mem_cons.1 hd with rfl | hd
  · exact hp
  · exact hwf d (List.take_subset _ _ hd)

theorem slotGet_single (key s : Str) (v : PyVal) :
    slotGet [(key, [(s, .val v)])] key (.inl s) = some v := by
  rw [slotGet_eslot, getA, if_pos rfl, Option.getD_some, eslot, getA, if_pos rfl]

/-! ## Out-of-range navigation -/

theorem stepAt_cons_self (d : StepData) (ds : List StepData) (i : Nat) :
    stepAt (d :: ds) i i = decodeStep d := by
  rw [stepAt, if_pos rfl]

theorem stepAt_cons_ne {t : Int} {i : Nat} (h : t ≠ (i : Int)) (d : StepData)
    (ds : List StepData) : stepAt (d :: ds) i t = stepAt ds (i + 1) t := by
  rw [stepAt, if_neg h]

/-- `GetPrev` past the retained range (offset out of `0 ≤ · < #steps`)
returns the empty dict, only moving the offset. -/
theorem GetPrev_out {g : History} {ds : List StepData}
    (hfile : g.histFile = mkFile ds) (hwf : ∀ d ∈ ds, WFStep d)
    (hout : g.currHistStep + 1 < 0 ∨ (ds.length : Int) ≤ g.currHistStep + 1) :
    g.GetPrev = some ([], { g with currHistStep := g.currHistStep + 1,
                                   currHistStepData := [] }) := by
  have hs := GetPrev_spec hfile hwf (h := g)
  rw [stepAt_out ds 0 _ (by push_cast; omega)] at hs
  exact hs

/-- `GetNext` past the newest step (offset out of `0 ≤ · < #steps`)
returns the empty dict, only moving the offset. -/
theorem GetNext_out {g : History} {ds : List StepData}
    (hfile : g.histFile = mkFile ds) (hwf : ∀ d ∈ ds, WFStep d)
    (hout : g.currHistStep - 1 < 0 ∨ (ds.length : Int) ≤ g.currHistStep - 1) :
    g.GetNext = some ([], { g with currHistStep := g.currHistStep - 1,
                                   currHistStepData := [] }) := by
  have hs := GetNext_spec hfile hwf (h := g)
  rw [stepAt_out ds 0 _ (by push_cast; omega)] at hs
  exact hs

/-- Right after a commit the offset is 0, so `GetPrev` reads the step
stored at index 1 — the second entry of the backing file. -/
theorem GetPrev_cons2 {g : History} {a b : StepData} {r : List StepData}
    (hfile : g.histFile = mkFile (a :: b :: r))
    (hwf : ∀ d ∈ a :: b :: r, WFStep d) (hc : g.currHistStep = 0) :
    g.GetPrev = some (decodeStep b,
      { g with currHistStep := 1, currHistStepData := decodeStep b }) := by
  have hstep : stepAt (a :: b :: r) 0 ((0 : Int) + 1) = decodeStep b := by
    rw [stepAt_cons_ne (by omega), stepAt, if_pos (by omega)]
  have hs := GetPrev_spec hfile hwf (h := g)
  rw [hc, hstep] at hs
  exact hs

/-- Committing the pending step and committing once more makes the first
pending step retrievable by a single `GetPrev` (which reads stored step 1). -/
theorem commit2_getPrev {h : History} {ds : List StepData} (maxH : Nat)
    (hm : 2 ≤ maxH) (hfile : h.histFile = mkFile ds)
    (hwf : ∀ d ∈ ds, WFStep d) (hpwf : WFStep h.newHistStepData) :
    ∃ h2 rem1 h3 rem2 h4,
      h.SaveHistStep maxH = some (h2, rem1) ∧
      h2.SaveHistStep maxH = some (h3, rem2) ∧
      h3.GetPrev = some (decodeStep h.newHistStepData, h4) := by
  have hwf2 : ∀ d ∈ h.newHistStepData :: ds.take (maxH - 1), WFStep d :=
    WF_cons_take hpwf hwf _
  obtain ⟨k, hk⟩ : ∃ k, maxH - 1 = k + 1 := ⟨maxH - 2, by omega⟩
  have hwf3 : ∀ d ∈ ([] : StepData) :: h.newHistStepData ::
      (ds.take (maxH - 1)).take k, WFStep d := fun d hd => by
    rcases List.mem_cons.1 hd with rfl | hd
    · exact WFStep_nil
    rcases List.mem_cons.1 hd with rfl | hd
    · exact hpwf
    · exact hwf d (List.take_subset _ _ (List.take_subset _ _ hd))
  exact ⟨_, _, _, _, _, SaveHistStep_spec maxH hfile hwf,
    SaveHistStep_spec maxH rfl hwf2,
    GetPrev_cons2 (a := ([] : StepData)) (b := h.newHistStepData)
      (r := (ds.take (maxH - 1)).take k) (by rw [hk]; rfl) hwf3 rfl⟩

/-! ## The claims -/

/-- C1 (counterexample): the round-trip law does not hold as stated.  The
string `"5"` — a supported value outside the documented float-zero
exception — is stored under `points;a` and committed; the single `GetPrev`
then returns the empty dict rather than the committed data (the offset
moves to 1 while the new step is stored at 0), and the committed step 0
itself decodes the slot to the integer `5`, not the string `"5"`. -/
theorem C1_string_roundtrip_cex :
    ((initHistory.Add "points".data (.inl "a".data)
        (.scalar (.str "5".data))).bind (History.SaveHistStep 3)).map
        (fun x => ((x.1.GetPrev).map Prod.fst,
          getHistStepData 0 x.1.histFile)) =
      some (some [], some [("points".data, [("a".data, .val (.int 5))])]) ∧
    DVal.int 5 ≠ .str "5".data :=
  ⟨rfl, by decide⟩

/-- C1 (amended): for every value with exact round trip (non-string
scalars with floats in canonical form, integer color triples, nonempty
lists of such scalars — strings are altered by the quote-stripping reader,
booleans and `None` survive only at top level), storing it via `Add`,
committing, committing once more and calling `GetPrev` returns step data
whose slot decodes to exactly the written value; in particular the color
tuple (192,0,0) reads back as the integer triple (192,0,0). -/
theorem C1_roundtrip_amended {h : History} {ds : List StepData}
    {key s : Str} {v : PyVal} {h1 : History} (maxH : Nat) (hm : 2 ≤ maxH)
    (hfile : h.histFile = mkFile ds) (hwf : ∀ d ∈ ds, WFStep d)
    (hpend : h.newHistStepData = [])
    (hkey : safeStr key) (hsub : safeStr s) (hgood : goodVal v)
    (hadd : h.Add key (.inl s) v = some h1) :
    ∃ h2 rem1 h3 rem2 h4,
      h1.SaveHistStep maxH = some (h2, rem1) ∧
      h2.SaveHistStep maxH = some (h3, rem2) ∧
      h3.GetPrev = some (decodeStep [(key, [(s, .val v)])], h4) ∧
      dslotGet (decodeStep [(key, [(s, .val v)])]) key (.inl s) =
        some (toD v) := by
  obtain ⟨hd, hf1, -, -, -, -⟩ := Add_eq hadd
  rw [hpend, addData_inl] at hd
  have hp : h1.newHistStepData = [(key, [(s, .val v)])] :=
    (Option.some_inj.1 hd).symm
  have hpwf : WFStep h1.newHistStepData := by
    rw [hp]
    exact WFStep_single hkey hsub (encodeTop_safe hgood)
  obtain ⟨h2, rem1, h3, rem2, h4, hs1, hs2, hgp⟩ :=
    commit2_getPrev maxH hm (hf1.trans hfile) hwf hpwf
  rw [hp] at hgp
  refine ⟨h2, rem1, h3, rem2, h4, hs1, hs2, hgp, ?_⟩
  rw [decodeStep_slot (slotGet_single key s v), parseValueRead_encodeTop hgood]

/-- C1 (witness): Scenario B — the color tuple (192,0,0) stored under
`points;a` into a fresh history, committed twice with cap 2, is loaded
back by one `GetPrev` with the slot decoding to the integer triple. -/
theorem C1_roundtrip_amended_witness :
    goodVal (.color 192 0 0) ∧
    ∃ h2 rem1 h3 rem2 h4,
      History.SaveHistStep 2 ⟨3, 0, 0, [], [("points".data,
        [("a".data, .val (.color 192 0 0))])], []⟩ = some (h2, rem1) ∧
      h2.SaveHistStep 2 = some (h3, rem2) ∧
      h3.GetPrev = some (decodeStep [("points".data,
        [("a".data, .val (.color 192 0 0))])], h4) ∧
      dslotGet (decodeStep [("points".data,
        [("a".data, .val (.color 192 0 0))])]) "points".data
        (.inl "a".data) = some (toD (.color 192 0 0)) :=
  ⟨by decide, C1_roundtrip_amended (h := initHistory) 2 (by decide)
    (Eq.refl (mkFile ([] : List StepData))) (by decide) rfl (by decide)
    (by decide) (by decide) rfl⟩

/-- C2: eviction is strictly FIFO.  On a history holding `k` committed
steps, a commit with cap `k` returns exactly the oldest step, decoded in
full and keyed by its renumbered header `history step=k`, and in the new
backing file every offset from `k` on reads back empty, so the evicted
step is no longer retrievable via `GetPrev`. -/
theorem C2_eviction_fifo {h : History} {ds : List StepData} {k : Nat}
    (hfile : h.histFile = mkFile ds) (hwf : ∀ d ∈ ds, WFStep d)
    (hpwf : WFStep h.newHistStepData) (hlen : ds.length = k)
    (hne : ds ≠ []) :
    h.SaveHistStep k = some
      (⟨k, 0, k - 1, h.currHistStepData, [],
        mkFile (h.newHistStepData :: ds.take (k - 1))⟩,
       [(headerLine k, decodeStep (ds.getLast hne))]) ∧
    ∀ t : Int, (k : Int) ≤ t →
      getHistStepData t (mkFile (h.newHistStepData :: ds.take (k - 1))) =
        some [] := by
  have hk1 : 1 ≤ k := by
    have := List.length_pos.2 hne
    omega
  constructor
  · have hs := SaveHistStep_spec k hfile hwf
    rw [remSteps_last k ds 0 (by omega) hne,
      show min ds.length (k - 1) = k - 1 from by omega] at hs
    exact hs
  · intro t ht
    rw [getHistStepData_mkFile (WF_cons_take hpwf hwf _) t,
      stepAt_out _ 0 t (Or.inr (by
        rw [List.length_cons, List.length_take]
        push_cast
        omega))]

/-- C2 (witness): Scenario A — with cap 2 and two committed steps (the
older holding `points;pt0;coords;[1.0, 2.0]`), the third commit returns
exactly the first committed step's decoded data, and offsets ≥ 2 of the
new file read back empty. -/
theorem C2_eviction_fifo_witness :
    (∀ d ∈ [[("b".data, [("x".data, .val (.scalar (.int 2)))])],
        [("points".data, [("pt0".data, .group [("coords".data,
          .list [.float ⟨false, 1, []⟩, .float ⟨false, 2, []⟩])])])]],
      WFStep d) ∧
    (History.SaveHistStep 2 ⟨2, 0, 1, [],
        [("c".data, [("y".data, .val (.scalar (.int 3)))])],
        mkFile [[("b".data, [("x".data, .val (.scalar (.int 2)))])],
          [("points".data, [("pt0".data, .group [("coords".data,
            .list [.float ⟨false, 1, []⟩, .float ⟨false, 2, []⟩])])])]]⟩ =
      some
        (⟨2, 0, 1, [], [],
          mkFile ([("c".data, [("y".data, .val (.scalar (.int 3)))])] ::
            [[("b".data, [("x".data, .val (.scalar (.int 2)))])],
             [("points".data, [("pt0".data, .group [("coords".data,
               .list [.float ⟨false, 1, []⟩, .float ⟨false, 2, []⟩])])])]].take 1)⟩,
         [(headerLine 2, decodeStep
           ([[("b".data, [("x".data, .val (.scalar (.int 2)))])],
             [("points".data, [("pt0".data, .group [("coords".data,
               .list [.float ⟨false, 1, []⟩, .float ⟨false, 2, []⟩])])])]].getLast
             (by decide)))]) ∧
     ∀ t : Int, ((2 : Nat) : Int) ≤ t →
       getHistStepData t
         (mkFile ([("c".data, [("y".data, .val (.scalar (.int 3)))])] ::
           [[("b".data, [("x".data, .val (.scalar (.int 2)))])],
            [("points".data, [("pt0".data, .group [("coords".data,
              .list [.float ⟨false, 1, []⟩, .float ⟨false, 2, []⟩])])])]].take 1)) =
         some []) := by
  refine ⟨by decide, ?_⟩
  apply C2_eviction_fifo <;> decide

/-- C3: bounded retention.  A commit with the cap `maxH` re-read at commit
time (the settings dialog enforces `1 ≤ maxH`) leaves the backing file
holding the pending step plus the first `maxH - 1` old steps — never more
than `maxH` steps — and returns every step beyond that as evicted, so a
cap that shrank since the last commit evicts several steps in one
commit. -/
theorem C3_bounded_retention {h : History} {ds : List StepData} (maxH : Nat)
    (hm : 1 ≤ maxH) (hfile : h.histFile = mkFile ds)
    (hwf : ∀ d ∈ ds, WFStep d) :
    ∃ h' rem, h.SaveHistStep maxH = some (h', rem) ∧
      h'.histFile = mkFile (h.newHistStepData :: ds.take (maxH - 1)) ∧
      (h.newHistStepData :: ds.take (maxH - 1)).length ≤ maxH ∧
      rem.length = ds.length - (maxH - 1) ∧
      h'.GetStepsNum = min ds.length (maxH - 1) := by
  refine ⟨_, _, SaveHistStep_spec maxH hfile hwf, rfl, ?_, ?_, rfl⟩
  · rw [List.length_cons, List.length_take]
    omega
  · rw [remSteps_length]
    omega

/-- C3 (witness): with three committed steps and the cap shrunk to 1, one
commit evicts all three old steps at once and retains only the new one. -/
theorem C3_bounded_retention_witness :
    1 ≤ 1 ∧
    ∃ h' rem, History.SaveHistStep 1 ⟨5, 0, 2, [], [],
        mkFile [[("a".data, [("x".data, .val (.scalar (.int 1)))])],
          [("b".data, [("x".data, .val (.scalar (.int 2)))])],
          [("c".data, [("x".data, .val (.scalar (.int 3)))])]]⟩ =
      some (h', rem) ∧
      h'.histFile = mkFile (([] : StepData) ::
        [[("a".data, [("x".data, .val (.scalar (.int 1)))])],
         [("b".data, [("x".data, .val (.scalar (.int 2)))])],
         [("c".data, [("x".data, .val (.scalar (.int 3)))])]].take 0) ∧
      (([] : StepData) ::
        [[("a".data, [("x".data, .val (.scalar (.int 1)))])],
         [("b".data, [("x".data, .val (.scalar (.int 2)))])],
         [("c".data, [("x".data, .val (.scalar (.int 3)))])]].take 0).length ≤ 1 ∧
      rem.length =
        ([[("a".data, [("x".data, .val (.scalar (.int 1)))])],
          [("b".data, [("x".data, .val (.scalar (.int 2)))])],
          [("c".data, [("x".data, .val (.scalar (.int 3)))])]] :
            List StepData).length - 0 ∧
      h'.GetStepsNum =
        min ([[("a".data, [("x".data, .val (.scalar (.int 1)))])],
          [("b".data, [("x".data, .val (.scalar (.int 2)))])],
          [("c".data, [("x".data, .val (.scalar (.int 3)))])]] :
            List StepData).length 0 := by
  refine ⟨by decide, ?_⟩
  apply C3_bounded_retention <;> decide

/-- C4 (counterexample): after a first commit (cap 3, far from reached)
the offset is 0 and the pending buffer is empty as claimed, but
`GetStepsNum` still returns 0 — not incremented, it counts retained steps
minus one — and a single `GetPrev` returns the empty dict, not the
just-committed data, which sits at stored offset 0 where `GetPrev` (which
pre-increments to 1) never looks. -/
theorem C4_postcommit_cex :
    ((initHistory.Add "points".data (.inl "a".data)
        (.scalar (.int 5))).bind (History.SaveHistStep 3)).map
        (fun x => (x.1.GetCurrHistStep, x.1.GetStepsNum,
          x.1.newHistStepData, (x.1.GetPrev).map Prod.fst)) =
      some (0, 0, [], some []) ∧
    initHistory.GetStepsNum = 0 ∧
    getHistStepData 0 (saveNewHistStepLines
        [("points".data, [("a".data, .val (.scalar (.int 5)))])]) =
      some [("points".data, [("a".data, .val (.int 5))])] ∧
    (some [] : Option DStepData) ≠
      some [("points".data, [("a".data, .val (.int 5))])] :=
  ⟨rfl, rfl, by decide, by decide⟩

/-- C4 (amended): after any commit the offset is 0 and the pending buffer
is empty; `GetStepsNum` returns the retained-step count minus one (not the
count, and not the previous value plus one); the just-committed data is
the file's stored step 0, readable directly; and the single `GetPrev`
instead returns stored step 1 — the previously newest step. -/
theorem C4_postcommit_amended {h : History} {ds : List StepData} (maxH : Nat)
    (hm : 1 ≤ maxH) (hfile : h.histFile = mkFile ds)
    (hwf : ∀ d ∈ ds, WFStep d) (hpwf : WFStep h.newHistStepData) :
    ∃ h' rem, h.SaveHistStep maxH = some (h', rem) ∧
      h'.GetCurrHistStep = 0 ∧
      h'.newHistStepData = [] ∧
      h'.GetStepsNum + 1 = (h.newHistStepData :: ds.take (maxH - 1)).length ∧
      getHistStepData 0 h'.histFile = some (decodeStep h.newHistStepData) ∧
      (h'.GetPrev).map Prod.fst =
        some (stepAt (h.newHistStepData :: ds.take (maxH - 1)) 0 1) := by
  refine ⟨_, _, SaveHistStep_spec maxH hfile hwf, rfl, rfl, ?_, ?_, ?_⟩
  · rw [List.length_cons, List.length_take]
    show min ds.length (maxH - 1) + 1 = min (maxH - 1) ds.length + 1
    omega
  · show getHistStepData 0 (mkFile (h.newHistStepData :: ds.take (maxH - 1))) =
      some (decodeStep h.newHistStepData)
    rw [getHistStepData_mkFile (WF_cons_take hpwf hwf _) 0, stepAt,
      if_pos (by omega)]
  · have hgp := @GetPrev_spec
      ⟨maxH, 0, min ds.length (maxH - 1), h.currHistStepData, [],
        mkFile (h.newHistStepData :: ds.take (maxH - 1))⟩
      (h.newHistStepData :: ds.take (maxH - 1)) rfl
      (WF_cons_take hpwf hwf _)
    rw [hgp, Option.map_some']
    rfl

/-- C4 (witness): one step committed into a fresh history with cap 3:
offset 0, empty pending buffer, `GetStepsNum` one less than the retained
count, the committed data stored at offset 0, and `GetPrev` reading
offset 1. -/
theorem C4_postcommit_amended_witness :
    1 ≤ 3 ∧
    ∃ h' rem, History.SaveHistStep 3 ⟨3, 0, 0, [],
        [("points".data, [("a".data, .val (.scalar (.int 5)))])], []⟩ =
      some (h', rem) ∧
      h'.GetCurrHistStep = 0 ∧
      h'.newHistStepData = [] ∧
      h'.GetStepsNum + 1 =
        ([("points".data, [("a".data, .val (.scalar (.int 5)))])] ::
          ([] : List StepData).take 2).length ∧
      getHistStepData 0 h'.histFile = some (decodeStep
        [("points".data, [("a".data, .val (.scalar (.int 5)))])]) ∧
      (h'.GetPrev).map Prod.fst = some (stepAt
        ([("points".data, [("a".data, .val (.scalar (.int 5)))])] ::
          ([] : List StepData).take 2) 0 1) := by
  refine ⟨by decide, ?_⟩
  apply C4_postcommit_amended <;> decide

/-- C5: navigation bounds.  Calling `GetPrev` more often than there are
retained steps returns the empty dict (never an error); from the newest
step every `GetNext` returns the empty dict; `GetPrev` on a freshly
constructed, empty log returns the empty dict; and neither call changes
the backing file. -/
theorem C5_navigation_bounds {h : History} {ds : List StepData}
    (hfile : h.histFile = mkFile ds) (hwf : ∀ d ∈ ds, WFStep d)
    (hc : h.currHistStep = 0) :
    (∀ n : Nat, ds.length < n →
      ∃ g g', iterPrev (n - 1) h = some g ∧ g.GetPrev = some ([], g') ∧
        g'.histFile = h.histFile) ∧
    (∀ n : Nat, ∃ g g', iterNext n h = some g ∧ g.GetNext = some ([], g') ∧
      g'.histFile = h.histFile) ∧
    (∃ g, initHistory.GetPrev = some ([], g)) := by
  refine ⟨?_, ?_, ⟨_, rfl⟩⟩
  · intro n hn
    exact ⟨_, _, iterPrev_spec hwf (n - 1) h hfile,
      GetPrev_out hfile hwf (Or.inr (by
        show (ds.length : Int) ≤ h.currHistStep + ((n - 1 : Nat) : Int) + 1
        rw [hc]
        omega)), rfl⟩
  · intro n
    exact ⟨_, _, iterNext_spec hwf n h hfile,
      GetNext_out hfile hwf (Or.inl (by
        show h.currHistStep - ((n : Nat) : Int) - 1 < 0
        rw [hc]
        omega)), rfl⟩

/-- C5 (witness): a history holding one committed step, at offset 0:
the second `GetPrev` onward reads empty, every `GetNext` reads empty, and
`GetPrev` on a fresh empty log reads empty. -/
theorem C5_navigation_bounds_witness :
    (∀ d ∈ ([[("a".data, [("x".data, .val (.scalar (.int 1)))])]] :
        List StepData), WFStep d) ∧
    ((∀ n : Nat,
        ([[("a".data, [("x".data, .val (.scalar (.int 1)))])]] :
          List StepData).length < n →
      ∃ g g', iterPrev (n - 1)
          ⟨3, 0, 0, [], [],
            mkFile [[("a".data, [("x".data, .val (.scalar (.int 1)))])]]⟩ =
            some g ∧
        g.GetPrev = some ([], g') ∧
        g'.histFile = mkFile
          [[("a".data, [("x".data, .val (.scalar (.int 1)))])]]) ∧
    (∀ n : Nat, ∃ g g', iterNext n
          ⟨3, 0, 0, [], [],
            mkFile [[("a".data, [("x".data, .val (.scalar (.int 1)))])]]⟩ =
            some g ∧
        g.GetNext = some ([], g') ∧
        g'.histFile = mkFile
          [[("a".data, [("x".data, .val (.scalar (.int 1)))])]]) ∧
    (∃ g, initHistory.GetPrev = some ([], g))) := by
  refine ⟨by decide, ?_⟩
  apply C5_navigation_bounds <;> decide

/-- C6 (counterexample): a committed list value is not written as
`[v1,v2,...]`: Python's `str` of a list separates elements with a comma
AND a space, so the line holds `[1, 2]`, not `[1,2]`. -/
theorem C6_list_format_cex :
    saveNewHistStepLines [("points".data,
        [("lst".data, .val (.list [.int 1, .int 2]))])] =
      [[], "history step=0".data, "points;lst;[1, 2]".data] ∧
    encodeTop (.list [.int 1, .int 2]) = "[1, 2]".data ∧
    encodeTop (.list [.int 1, .int 2]) ≠ "[1,2]".data :=
  ⟨by decide, by decide, by decide⟩

/-- C6 (amended): the wire format of values.  Scalars are stringified
directly; a color tuple (r,g,b) is written as the colon-separated `R:G:B`
with no brackets; a list is written as its elements' reprs between square
brackets separated by comma-space (`[v1, v2, ...]`); and for a committed
step each flat slot's line is exactly `key;subkey;value` built from that
encoding. -/
theorem C6_wire_format_amended :
    (∀ s : Scalar, encodeTop (.scalar s) = scalarStr s) ∧
    (∀ r g b : Int, encodeTop (.color r g b) =
      intStr r ++ ':' :: intStr g ++ ':' :: intStr b) ∧
    (∀ xs : List Scalar, encodeTop (.list xs) =
      '[' :: joinSep ", ".data (xs.map scalarRepr) ++ [']']) ∧
    (∀ (key sub : Str) (v : PyVal),
      saveNewHistStepLines [(key, [(sub, .val v)])] =
        [[], headerLine 0, key ++ ';' :: sub ++ ';' :: encodeTop v]) := by
  refine ⟨encodeTop_scalar, encodeTop_color, encodeTop_list, ?_⟩
  intro key sub v
  show ([] : Str) :: headerLine 0 ::
      (key ++ ';' :: (sub ++ [';'] ++ encodeTop v)) :: [] = _
  rw [List.append_assoc sub, List.singleton_append, List.append_assoc key,
    List.cons_append]

/-- C7 (counterexample): a float of integral magnitude does NOT read back
as an integer.  `0.0` encodes to the string `"0.0"`, on which the integer
parse raises (`int("0.0")` is a `ValueError`), so the decoder falls
through to the float parse and returns the float `0.0`, not the integer
`0`; the same holds through a full commit. -/
theorem C7_float_zero_cex :
    encodeTop (.scalar (.float ⟨false, 0, []⟩)) = "0.0".data ∧
    parseValueRead "0.0".data = .float ⟨false, 0, []⟩ ∧
    parseValueRead "0.0".data ≠ .int 0 ∧
    ((initHistory.Add "opts".data (.inl "z".data)
        (.scalar (.float ⟨false, 0, []⟩))).bind (History.SaveHistStep 3)).map
        (fun x => getHistStepData 0 x.1.histFile) =
      some (some [("opts".data,
        [("z".data, .val (.float ⟨false, 0, []⟩))])]) :=
  ⟨by decide, by decide, by decide, rfl⟩

/-- C7 (amended): every float in canonical decimal rendering survives the
round trip as a float: the integer parse always fails on a rendered float
(the decimal point is never accepted by `int(...)`), so the decoder
returns exactly the written float. -/
theorem C7_float_roundtrip_amended (f : PyFloat) (hN : f.Normal) :
    parseIntStr f.render = none ∧
    parseValueRead (encodeTop (.scalar (.float f))) = .float f := by
  refine ⟨parseIntStr_render f, ?_⟩
  rw [encodeTop_scalar, scalarStr_float]
  exact parseValueRead_float hN

/-- C7 (witness): the float 2.5 round-trips as the float 2.5. -/
theorem C7_float_roundtrip_amended_witness :
    PyFloat.Normal ⟨false, 2, [5]⟩ ∧
    (parseIntStr (PyFloat.render ⟨false, 2, [5]⟩) = none ∧
     parseValueRead (encodeTop (.scalar (.float ⟨false, 2, [5]⟩))) =
       .float ⟨false, 2, [5]⟩) :=
  ⟨by decide, C7_float_roundtrip_amended _ (by decide)⟩

/-- C8: empty-string policy.  A slot of the pending step holding the empty
string decodes — through the step's serialized lines, which parse back to
exactly the decoded step — to the empty string, never to `None`: only the
literal four-character field `None` decodes to null. -/
theorem C8_empty_string_roundtrip {d : StepData} {key : Str} {sk : SubKey}
    (hslot : slotGet d key sk = some (.scalar (.str []))) :
    dslotGet (decodeStep d) key sk = some (.str []) ∧
    dslotGet (decodeStep d) key sk ≠ some DVal.none ∧
    (WFStep d → parseLines (stepLines d) [] = some (decodeStep d)) := by
  have h1 := decodeStep_slot hslot
  have h2 : parseValueRead (encodeTop (.scalar (.str []))) = .str [] := by
    decide
  rw [h2] at h1
  exact ⟨h1, by rw [h1]; decide, fun hwf => parseLines_stepLines_nil hwf⟩

/-- C8 (witness): the empty string stored under `points;nm` decodes to the
empty string and not to null, and the step's lines parse back to the
decoded step. -/
theorem C8_empty_string_roundtrip_witness :
    slotGet [("points".data, [("nm".data, .val (.scalar (.str [])))])]
        "points".data (.inl "nm".data) = some (.scalar (.str [])) ∧
    (dslotGet (decodeStep [("points".data,
        [("nm".data, .val (.scalar (.str [])))])]) "points".data
        (.inl "nm".data) = some (.str []) ∧
     dslotGet (decodeStep [("points".data,
        [("nm".data, .val (.scalar (.str [])))])]) "points".data
        (.inl "nm".data) ≠ some DVal.none ∧
     (WFStep [("points".data, [("nm".data, .val (.scalar (.str [])))])] →
      parseLines (stepLines [("points".data,
        [("nm".data, .val (.scalar (.str [])))])]) [] =
        some (decodeStep [("points".data,
          [("nm".data, .val (.scalar (.str [])))])]))) :=
  ⟨by decide, C8_empty_string_roundtrip (by decide)⟩

/-- C9 (counterexample): the frame part of the `Add` contract fails for
overlapping names.  After `Add("points", ["grp","leaf"], 1)`, the call
`Add("points", "grp", 2)` — a different subkey — replaces the whole
subkey-group, so the previously stored slot `("points", ["grp","leaf"])`
is lost. -/
theorem C9_frame_cex :
    ∃ h1 h2 : History,
      initHistory.Add "points".data (.inr ("grp".data, "leaf".data))
        (.scalar (.int 1)) = some h1 ∧
      h1.Add "points".data (.inl "grp".data) (.scalar (.int 2)) = some h2 ∧
      (Sum.inl "grp".data : SubKey) ≠ Sum.inr ("grp".data, "leaf".data) ∧
      slotGet h1.newHistStepData "points".data
        (.inr ("grp".data, "leaf".data)) = some (.scalar (.int 1)) ∧
      slotGet h2.newHistStepData "points".data
        (.inr ("grp".data, "leaf".data)) = none :=
  ⟨⟨3, 0, 0, [], [("points".data, [("grp".data,
      .group [("leaf".data, .scalar (.int 1))])])], []⟩,
   ⟨3, 0, 0, [], [("points".data, [("grp".data,
      .val (.scalar (.int 2)))])], []⟩,
   by decide, by decide, by decide, by decide, by decide⟩

/-- C9 (amended): `Add` overwrite and frame.  Writing the same
`(key, subkey)` slot twice leaves the second value; every slot under a
different top-level key, and every independent slot under the same key
(different plain names, different group names, or same group with a
different leaf — but NOT a plain name equal to a group name), is
unchanged; and `Add` mutates nothing but the pending buffer: the backing
file, the offset, the step counter and the cached step data are
untouched. -/
theorem C9_add_overwrite_amended {h h1 h2 : History} {key : Str}
    {sk : SubKey} {v1 v2 : PyVal} (ha1 : h.Add key sk v1 = some h1)
    (ha2 : h1.Add key sk v2 = some h2) :
    slotGet h2.newHistStepData key sk = some v2 ∧
    (∀ (key' : Str) (sk' : SubKey), key' ≠ key ∨ indepSub sk sk' →
      slotGet h2.newHistStepData key' sk' =
        slotGet h.newHistStepData key' sk') ∧
    h2.histFile = h.histFile ∧ h2.currHistStep = h.currHistStep ∧
    h2.histStepsNum = h.histStepsNum ∧
    h2.currHistStepData = h.currHistStepData := by
  obtain ⟨hd1, hf1, hc1, hn1, hcd1, -⟩ := Add_eq ha1
  obtain ⟨hd2, hf2, hc2, hn2, hcd2, -⟩ := Add_eq ha2
  refine ⟨addData_self hd2, ?_, hf2.trans hf1, hc2.trans hc1,
    hn2.trans hn1, hcd2.trans hcd1⟩
  intro key' sk' hind
  rw [addData_frame hd2 key' sk' hind, addData_frame hd1 key' sk' hind]

/-- C9 (witness): writing `styles;color` twice keeps the second value,
leaves an unrelated slot and all non-buffer fields unchanged. -/
theorem C9_add_overwrite_amended_witness :
    History.Add ⟨3, 0, 0, [], [("other".data,
        [("w".data, .val (.scalar (.int 9)))])], []⟩ "styles".data
      (.inl "color".data) (.scalar (.int 1)) =
      some ⟨3, 0, 0, [], [("other".data,
        [("w".data, .val (.scalar (.int 9)))]), ("styles".data,
        [("color".data, .val (.scalar (.int 1)))])], []⟩ ∧
    History.Add ⟨3, 0, 0, [], [("other".data,
        [("w".data, .val (.scalar (.int 9)))]), ("styles".data,
        [("color".data, .val (.scalar (.int 1)))])], []⟩ "styles".data
      (.inl "color".data) (.scalar (.int 2)) =
      some ⟨3, 0, 0, [], [("other".data,
        [("w".data, .val (.scalar (.int 9)))]), ("styles".data,
        [("color".data, .val (.scalar (.int 2)))])], []⟩ ∧
    (slotGet [("other".data, [("w".data, .val (.scalar (.int 9)))]),
        ("styles".data, [("color".data, .val (.scalar (.int 2)))])]
      "styles".data (.inl "color".data) = some (.scalar (.int 2)) ∧
    (∀ (key' : Str) (sk' : SubKey),
      key' ≠ "styles".data ∨ indepSub (.inl "color".data) sk' →
      slotGet [("other".data, [("w".data, .val (.scalar (.int 9)))]),
          ("styles".data, [("color".data, .val (.scalar (.int 2)))])]
          key' sk' =
        slotGet [("other".data, [("w".data, .val (.scalar (.int 9)))])]
          key' sk') ∧
    ([] : List Str) = [] ∧ (0 : Int) = 0 ∧ (0 : Nat) = 0 ∧
    ([] : DStepData) = []) :=
  ⟨by decide, by decide,
   C9_add_overwrite_amended
     (by decide : History.Add ⟨3, 0, 0, [], [("other".data,
        [("w".data, .val (.scalar (.int 9)))])], []⟩ "styles".data
        (.inl "color".data) (.scalar (.int 1)) =
       some ⟨3, 0, 0, [], [("other".data,
        [("w".data, .val (.scalar (.int 9)))]), ("styles".data,
        [("color".data, .val (.scalar (.int 1)))])], []⟩)
     (by decide : History.Add ⟨3, 0, 0, [], [("other".data,
        [("w".data, .val (.scalar (.int 9)))]), ("styles".data,
        [("color".data, .val (.scalar (.int 1)))])], []⟩ "styles".data
        (.inl "color".data) (.scalar (.int 2)) =
       some ⟨3, 0, 0, [], [("other".data,
        [("w".data, .val (.scalar (.int 9)))]), ("styles".data,
        [("color".data, .val (.scalar (.int 2)))])], []⟩)⟩

theorem GetNext_c {g : History} {x : DStepData × History}
    (hx : g.GetNext = some x) : x.2.currHistStep = g.currHistStep - 1 := by
  simp only [History.GetNext] at hx
  cases hd : getHistStepData (g.currHistStep - 1) g.histFile with
  | none => rw [hd] at hx; exact Option.noConfusion hx
  | some dd =>
    rw [hd, Option.map_some', Option.some_inj] at hx
    rw [← hx]

theorem GetPrev_c {g : History} {x : DStepData × History}
    (hx : g.GetPrev = some x) : x.2.currHistStep = g.currHistStep + 1 := by
  simp only [History.GetPrev] at hx
  cases hd : getHistStepData (g.currHistStep + 1) g.histFile with
  | none => rw [hd] at hx; exact Option.noConfusion hx
  | some dd =>
    rw [hd, Option.map_some', Option.some_inj] at hx
    rw [← hx]

/-- `GetPrev` from offset -1 reads the newest stored step (index 0). -/
theorem GetPrev_read0 {g : History} {d0 : StepData} {ds' : List StepData}
    (hfile : g.histFile = mkFile (d0 :: ds'))
    (hwf : ∀ d ∈ d0 :: ds', WFStep d) (hc : g.currHistStep = -1) :
    g.GetPrev = some (decodeStep d0,
      { g with currHistStep := g.currHistStep + 1,
               currHistStepData := decodeStep d0 }) := by
  have hs := GetPrev_spec hfile hwf (h := g)
  have hstep : stepAt (d0 :: ds') 0 (g.currHistStep + 1) = decodeStep d0 := by
    rw [hc, show (-1 : Int) + 1 = ((0 : Nat) : Int) from by omega,
      stepAt_cons_self]
  rw [hstep] at hs
  exact hs

/-- C10: unclamped offset inversion.  `GetNext` always decrements and
`GetPrev` always increments the offset by exactly one, regardless of
bounds, so each undoes the other exactly; from offset 0 the offset goes
negative under `GetNext`, and after n `GetNext` calls the first n-1
`GetPrev` calls return the empty dict while the n-th returns the newest
step's data again with the offset back at 0. -/
theorem C10_offset_inversion {h : History} {d0 : StepData}
    {l : List StepData} (hfile : h.histFile = mkFile (d0 :: l))
    (hwf : ∀ d ∈ d0 :: l, WFStep d) (hc : h.currHistStep = 0)
    (n : Nat) (hn : 1 ≤ n) :
    (∀ (g : History) (x : DStepData × History), g.GetNext = some x →
      x.2.GetCurrHistStep = g.GetCurrHistStep - 1) ∧
    (∀ (g : History) (x : DStepData × History), g.GetPrev = some x →
      x.2.GetCurrHistStep = g.GetCurrHistStep + 1) ∧
    (∀ (g : History) (x y : DStepData × History), g.GetNext = some x →
      x.2.GetPrev = some y → y.2.GetCurrHistStep = g.GetCurrHistStep) ∧
    (∀ (g : History) (x y : DStepData × History), g.GetPrev = some x →
      x.2.GetNext = some y → y.2.GetCurrHistStep = g.GetCurrHistStep) ∧
    ∃ g, iterNext n h = some g ∧ g.GetCurrHistStep = -(n : Int) ∧
      (∀ k : Nat, 1 ≤ k → k < n → ∃ gk x, iterPrev (k - 1) g = some gk ∧
        gk.GetPrev = some ([], x)) ∧
      (∃ gn x, iterPrev (n - 1) g = some gn ∧
        gn.GetPrev = some (decodeStep d0, x) ∧ x.GetCurrHistStep = 0) := by
  refine ⟨fun g x hx => GetNext_c hx, fun g x hx => GetPrev_c hx,
    fun g x y hx hy => ?_, fun g x y hx hy => ?_, ?_⟩
  · have h1 := GetNext_c hx
    have h2 := GetPrev_c hy
    show y.2.currHistStep = g.currHistStep
    omega
  · have h1 := GetPrev_c hx
    have h2 := GetNext_c hy
    show y.2.currHistStep = g.currHistStep
    omega
  obtain ⟨g, hiter, hgc, hgf⟩ :
      ∃ g, iterNext n h = some g ∧
        g.currHistStep = h.currHistStep - (n : Int) ∧
        g.histFile = h.histFile :=
    ⟨_, iterNext_spec hwf n h hfile, rfl, rfl⟩
  refine ⟨g, hiter, ?_, ?_, ?_⟩
  · show g.currHistStep = -(n : Int)
    rw [hgc, hc]
    omega
  · intro k hk1 hk2
    obtain ⟨gk, hkiter, hkc, hkf⟩ :
        ∃ gk, iterPrev (k - 1) g = some gk ∧
          gk.currHistStep = g.currHistStep + ((k - 1 : Nat) : Int) ∧
          gk.histFile = g.histFile :=
      ⟨_, iterPrev_spec hwf (k - 1) g (hgf.trans hfile), rfl, rfl⟩
    exact ⟨gk, _, hkiter,
      GetPrev_out (hkf.trans (hgf.trans hfile)) hwf (Or.inl (by
        rw [hkc, hgc, hc]
        omega))⟩
  · obtain ⟨gn, hniter, hnc, hnf⟩ :
        ∃ gn, iterPrev (n - 1) g = some gn ∧
          gn.currHistStep = g.currHistStep + ((n - 1 : Nat) : Int) ∧
          gn.histFile = g.histFile :=
      ⟨_, iterPrev_spec hwf (n - 1) g (hgf.trans hfile), rfl, rfl⟩
    refine ⟨gn, _, hniter,
      GetPrev_read0 (hnf.trans (hgf.trans hfile)) hwf (by
        rw [hnc, hgc, hc]
        omega), ?_⟩
    show gn.currHistStep + 1 = 0
    rw [hnc, hgc, hc]
    omega

/-- C10 (witness): one committed step, two `GetNext` calls from offset 0,
then two `GetPrev` calls: the first reads empty, the second reads the
newest step with the offset restored to 0. -/
theorem C10_offset_inversion_witness :
    (∀ d ∈ ([[("p".data, [("q".data, .val (.scalar (.int 7)))])]] :
        List StepData), WFStep d) ∧
    ((∀ (g : History) (x : DStepData × History), g.GetNext = some x →
      x.2.GetCurrHistStep = g.GetCurrHistStep - 1) ∧
    (∀ (g : History) (x : DStepData × History), g.GetPrev = some x →
      x.2.GetCurrHistStep = g.GetCurrHistStep + 1) ∧
    (∀ (g : History) (x y : DStepData × History), g.GetNext = some x →
      x.2.GetPrev = some y → y.2.GetCurrHistStep = g.GetCurrHistStep) ∧
    (∀ (g : History) (x y : DStepData × History), g.GetPrev = some x →
      x.2.GetNext = some y → y.2.GetCurrHistStep = g.GetCurrHistStep) ∧
    ∃ g, iterNext 2 ⟨3, 0, 0, [], [],
        mkFile [[("p".data, [("q".data, .val (.scalar (.int 7)))])]]⟩ =
        some g ∧
      g.GetCurrHistStep = -((2 : Nat) : Int) ∧
      (∀ k : Nat, 1 ≤ k → k < 2 → ∃ gk x, iterPrev (k - 1) g = some gk ∧
        gk.GetPrev = some ([], x)) ∧
      (∃ gn x, iterPrev (2 - 1) g = some gn ∧
        gn.GetPrev = some (decodeStep
          [("p".data, [("q".data, .val (.scalar (.int 7)))])], x) ∧
        x.GetCurrHistStep = 0)) := by
  refine ⟨by decide, ?_⟩
  apply C10_offset_inversion (l := ([] : List StepData)) <;> decide
